import Mathlib

/-!
Verification development for the PII-masking secretary/chat backend.

The Python sources are embedded shallowly:
* strings are `List Char` (Python `str` is a sequence of code points);
* Python dicts that are only iterated, key-tested and appended to are
  association lists in insertion order (`Mapping`), with `dictInsert`
  modelling `d[k] = v` (overwrite keeps the original position);
* the regular-expression engine (`re`, a library external to the
  repository) is not re-implemented: a `mask` call is modelled on the
  decomposition of the input text into literal stretches and matches
  that the engine produces (`Piece`), while all replacement, token
  allocation, deduplication and unmasking logic is translated from
  `app/services/pii_service.py` verbatim;
* `json.loads` (also a library) is an oracle `Str -> Option JObj`,
  `none` standing for a raised `JSONDecodeError`;
* network calls of the provider are an oracle
  `ProviderRequest -> Except Str ProviderResponse`, `.error` standing
  for a raised exception;
* `async` code is sequentialised: `asyncio.gather` of the per-tool-call
  coroutines is the list of their results in call order.
-/

namespace SecurityChat

abbrev Str := List Char

/-- Left curly brace (written by code, not by name, throughout). -/
def lbr : Char := '\x7b'

/-- Right curly brace. -/
def rbr : Char := '\x7d'

/-- Underscore. -/
def usc : Char := '_'

/-- Does `s` avoid both curly braces? -/
def braceFree (s : Str) : Bool := s.all (fun c => !(c = lbr || c = rbr))

/-- Python `pat in s` (substring test) on character lists. -/
def containsSeq (s pat : Str) : Bool :=
  pat.isPrefixOf s ||
    (match s with
     | [] => false
     | _ :: cs => containsSeq cs pat)

/-- Fuelled worker for `replaceAll`.  The fuel only drives the structural
recursion; any fuel above the text length computes the same result. -/
def replaceAllF : Nat → Str → Str → Str → Str
  | 0, s, _, _ => s
  | _ + 1, [], pat, rep => if pat = [] then rep else []
  | f + 1, c :: cs, pat, rep =>
    if pat = [] then rep ++ c :: replaceAllF f cs pat rep
    else if pat.isPrefixOf (c :: cs) then
      rep ++ replaceAllF f ((c :: cs).drop pat.length) pat rep
    else c :: replaceAllF f cs pat rep

/-- Python `s.replace(pat, rep)`: replace every non-overlapping occurrence of
`pat` left to right (for the empty pattern, `rep` is interleaved before every
character and at the end, as in Python). -/
def replaceAll (s pat rep : Str) : Str := replaceAllF (s.length + 1) s pat rep

/-- Decimal digit character. -/
def digitChar (n : Nat) : Char :=
  match n with
  | 0 => '0' | 1 => '1' | 2 => '2' | 3 => '3' | 4 => '4'
  | 5 => '5' | 6 => '6' | 7 => '7' | 8 => '8' | _ => '9'

/-- Fuelled worker for `natStr`. -/
def natStrF : Nat → Nat → Str
  | 0, _ => []
  | f + 1, n => if n < 10 then [digitChar n] else natStrF f (n / 10) ++ [digitChar (n % 10)]

/-- Decimal rendering of a natural number, as Python `f-string` formatting
of the token counter produces it. -/
def natStr (n : Nat) : Str := natStrF (n + 1) n

/-- Decimal value of a digit string (left fold), used to invert `natStr`. -/
def strVal (s : Str) : Nat :=
  s.foldl (fun a c => 10 * a + (c.toNat - 48)) 0

/-- Stable insertion (descending key length), modelling Python's stable
`list.sort(key=lambda x: len(x[0]), reverse=True)`. -/
def insertByLen (x : Str × Str) : List (Str × Str) → List (Str × Str)
  | [] => [x]
  | y :: ys => if x.1.length < y.1.length then y :: insertByLen x ys else x :: y :: ys

/-- Stable sort by key length, descending. -/
def sortByLen : List (Str × Str) → List (Str × Str)
  | [] => []
  | x :: xs => insertByLen x (sortByLen xs)

/-- A Python dict used in insertion order: an association list. -/
abbrev Mapping := List (Str × Str)

/-- Python `d[k] = v`: overwrite in place if the key exists, else append. -/
def dictInsert (m : Mapping) (k v : Str) : Mapping :=
  if m.any (fun kv => kv.1 = k) then m.map (fun kv => if kv.1 = k then (k, v) else kv)
  else m ++ [(k, v)]

namespace PIIService

/-- The string `"\x7b\x7bTYPE"`: Python `f"\x7b\x7b\x7b\x7b\x7btype_prefix\x7d"`
used both for deduplication lookup and for counting existing tokens. -/
def bracePre (ty : Str) : Str := lbr :: lbr :: ty

/-- The token `"\x7b\x7bTYPE_n\x7d\x7d"`. -/
def mkToken (ty : Str) (n : Nat) : Str :=
  lbr :: lbr :: ty ++ usc :: natStr n ++ [rbr, rbr]

/-- `next((k for k, v in mapping.items() if v == original and
k.startswith(prefix)), None)` from `replace_match`. -/
def findExisting (m : Mapping) (ty orig : Str) : Option Str :=
  (m.find? fun kv => kv.2 = orig && (bracePre ty).isPrefixOf kv.1).map fun kv => kv.1

/-- `len([k for k in mapping.keys() if k.startswith(prefix)])`. -/
def prefCount (m : Mapping) (ty : Str) : Nat :=
  m.countP fun kv => (bracePre ty).isPrefixOf kv.1

/-- Core of `replace_match`: reuse an existing token for this exact value and
type prefix (dedup), else allocate `mkToken ty (prefCount + 1)` and record it. -/
def allocate (m : Mapping) (ty orig : Str) : Str × Mapping :=
  match findExisting m ty orig with
  | some tok => (tok, m)
  | none =>
    let tok := mkToken ty (prefCount m ty + 1)
    (tok, dictInsert m tok orig)

/-- One stretch of text as the regex engine decomposes it during a `re.sub`
pass: either a literal stretch between matches, or a match of a typed
pattern.  A whole-pattern rule (`GroupIndex` 0) yields `mat ty [] full []`;
a capture-group rule yields `mat ty pre mid suf` with only `mid` masked. -/
inductive Piece where
  | lit (s : Str)
  | mat (ty : Str) (pre mid suf : Str)

/-- `replace_match` applied to one piece: literals pass through; an empty
captured group returns the full match unchanged; otherwise the captured
value is tokenised via `allocate`. -/
def replaceMatchPiece (m : Mapping) : Piece → Str × Mapping
  | .lit s => (s, m)
  | .mat ty pre mid suf =>
    if mid = [] then (pre ++ mid ++ suf, m)
    else
      let r := allocate m ty mid
      (pre ++ r.1 ++ suf, r.2)

/-- `mask`: substitute every piece in order, threading the mapping. -/
def maskPieces (m : Mapping) : List Piece → Str × Mapping
  | [] => ([], m)
  | p :: ps =>
    let r1 := replaceMatchPiece m p
    let r2 := maskPieces r1.2 ps
    (r1.1 ++ r2.1, r2.2)

/-- The original text a piece list stands for. -/
def pieceText : Piece → Str
  | .lit s => s
  | .mat _ pre mid suf => pre ++ mid ++ suf

/-- Concatenation of the original text of all pieces. -/
def flattenPieces : List Piece → Str
  | [] => []
  | p :: ps => pieceText p ++ flattenPieces ps

/-- `token.startswith("\x7b\x7b") and token.endswith("\x7d\x7d")`. -/
def isBraced (t : Str) : Bool :=
  [lbr, lbr].isPrefixOf t && [rbr, rbr].isSuffixOf t

/-- Python `token[2:-2]`. -/
def stripBraces (t : Str) : Str := (t.drop 2).take (t.length - 4)

/-- A braced token built from its bare interior. -/
def mkBraced (s : Str) : Str := lbr :: lbr :: s ++ [rbr, rbr]

/-- The extended mapping of `unmask`: each `(token, original)` pair followed
by its bare variant when the token is braced. -/
def extendMapping : Mapping → List (Str × Str)
  | [] => []
  | kv :: rest =>
    (kv.1, kv.2) ::
      (if isBraced kv.1 then [(stripBraces kv.1, kv.2)] else []) ++ extendMapping rest

/-- One step of `unmask`'s loop body:
`if key in text: text = text.replace(key, original)`. -/
def unmaskStep (t : Str) (kv : Str × Str) : Str :=
  if containsSeq t kv.1 then replaceAll t kv.1 kv.2 else t

/-- `unmask`: sort the extended mapping by key length descending, then for
each key present in the text replace every occurrence by the original. -/
def unmask (text : Str) (m : Mapping) : Str :=
  (sortByLen (extendMapping m)).foldl unmaskStep text

/-- Ghost view of a masked text: the literal stretches around the
substitution sites (`run`) and the substituted tokens with the original
value they stand for (`site`).  Concatenating the first components of the
chunks gives the masked text; replacing every site by its value gives the
original text back. -/
inductive Chunk where
  | run (s : Str)
  | site (tok : Str) (v : Str)

/-- `maskPieces` recast to keep the chunk structure of its output. -/
def chunksOf (m : Mapping) : List Piece → List Chunk × Mapping
  | [] => ([], m)
  | .lit s :: ps =>
    let r := chunksOf m ps
    (Chunk.run s :: r.1, r.2)
  | .mat ty pre mid suf :: ps =>
    if mid = [] then
      let r := chunksOf m ps
      (Chunk.run (pre ++ mid ++ suf) :: r.1, r.2)
    else
      let a := allocate m ty mid
      let r := chunksOf a.2 ps
      (Chunk.run pre :: Chunk.site a.1 mid :: Chunk.run suf :: r.1, r.2)

/-- The masked text a chunk list denotes. -/
def renderChunks : List Chunk → Str
  | [] => []
  | Chunk.run s :: cs => s ++ renderChunks cs
  | Chunk.site t _ :: cs => t ++ renderChunks cs

/-- The original text a chunk list denotes (every site restored). -/
def restoreChunks : List Chunk → Str
  | [] => []
  | Chunk.run s :: cs => s ++ restoreChunks cs
  | Chunk.site _ v :: cs => v ++ restoreChunks cs

/-- The substitution sites of a chunk list, in order. -/
def sitesOf : List Chunk → List (Str × Str)
  | [] => []
  | Chunk.run _ :: cs => sitesOf cs
  | Chunk.site t v :: cs => (t, v) :: sitesOf cs

/-- Replace every site carrying token `k` by the literal `w`. -/
def replaceSiteChunks (chs : List Chunk) (k w : Str) : List Chunk :=
  chs.map (fun c =>
    match c with
    | Chunk.site t v => if t = k then Chunk.run w else Chunk.site t v
    | c => c)

/-- The captured values of the match pieces, in order. -/
def midsOf : List Piece → List Str
  | [] => []
  | .lit _ :: ps => midsOf ps
  | .mat _ _ mid _ :: ps => mid :: midsOf ps

/-- Well-formed chunk: runs are brace-free; a site's token is a braced form
of a nonempty brace-free interior and its value is brace-free. -/
def ChunkGood : Chunk → Prop
  | .run s => braceFree s = true
  | .site t v =>
    (∃ i, i ≠ [] ∧ braceFree i = true ∧ t = mkBraced i) ∧ braceFree v = true

/-- A key of the extended mapping as the unmasking argument needs it: either
a braced token, or a bare (brace-free, nonempty) form that does not occur in
the original text `T`. -/
def GoodKey (T : Str) (kv : Str × Str) : Prop :=
  (∃ i, i ≠ [] ∧ braceFree i = true ∧ kv.1 = mkBraced i) ∨
  (kv.1 ≠ [] ∧ braceFree kv.1 = true ∧ containsSeq T kv.1 = false)

/-- Invariant of a mapping produced by masking: keys are tokens with
brace-free type names, a token's index never exceeds the current prefix
count of its type, keys are distinct, values are brace-free. -/
def MapInv (m : Mapping) : Prop :=
  (∀ kv ∈ m, ∃ ty n, braceFree ty = true ∧ kv.1 = mkToken ty n) ∧
  (∀ ty n v, (mkToken ty n, v) ∈ m → n ≤ prefCount m ty) ∧
  (m.map Prod.fst).Nodup ∧
  (∀ kv ∈ m, braceFree kv.2 = true)

/-- Well-formed piece for the round-trip statement: all components are
brace-free and captured values are nonempty. -/
def PieceGood : Piece → Prop
  | .lit s => braceFree s = true
  | .mat ty pre mid suf =>
    braceFree ty = true ∧ braceFree pre = true ∧ braceFree mid = true ∧
    braceFree suf = true ∧ mid ≠ []

instance decPieceGood : ∀ p, Decidable (PieceGood p)
  | .lit s => inferInstanceAs (Decidable (braceFree s = true))
  | .mat ty pre mid suf =>
    inferInstanceAs (Decidable (braceFree ty = true ∧ braceFree pre = true ∧
      braceFree mid = true ∧ braceFree suf = true ∧ mid ≠ []))

end PIIService

/-- `ModelCapability` (pydantic model with its defaults). -/
structure ModelCapability where
  supports_temperature : Bool := true
  supports_vision : Bool := false
  supports_tools : Bool := false
  supports_responses_api : Bool := false
  max_output_tokens : Option Nat := none
  api_type : Str := ("chat_completions").data
deriving DecidableEq

namespace ModelRegistry

/-- Registry entry for `"gpt-5-nano"`. -/
def gpt5nano : ModelCapability :=
  { supports_temperature := true, supports_vision := false, supports_tools := true
    api_type := ("responses").data }

/-- Registry entry for `"gpt-5-mini"`. -/
def gpt5mini : ModelCapability :=
  { supports_temperature := true, supports_vision := false, supports_tools := true
    api_type := ("responses").data }

/-- Registry entry for `"gpt-5.1"`. -/
def gpt51 : ModelCapability :=
  { supports_temperature := true, supports_vision := true, supports_tools := true
    api_type := ("responses").data }

/-- The static `_capabilities` table. -/
def capabilities : List (Str × ModelCapability) :=
  [(("gpt-5-nano").data, gpt5nano), (("gpt-5-mini").data, gpt5mini),
   (("gpt-5.1").data, gpt51)]

/-- `_defaults = ModelCapability()`. -/
def defaults : ModelCapability := {}

/-- `ModelRegistry.get_capabilities`: falsy id, exact table hit, `gpt-5`
family prefix, `o1` family prefix, hard-coded default. -/
def get_capabilities (model_id : Str) : ModelCapability :=
  if model_id = [] then defaults
  else
    match capabilities.find? (fun kv => kv.1 = model_id) with
    | some kv => kv.2
    | none =>
      if (("gpt-5").data).isPrefixOf model_id then
        match capabilities.find? (fun kv => kv.1 = ("gpt-5-nano").data) with
        | some kv => kv.2
        | none => defaults
      else if (("o1").data).isPrefixOf model_id then
        { supports_temperature := false, supports_tools := false
          api_type := ("chat_completions").data }
      else defaults

end ModelRegistry

namespace SecretaryService

/-- Parsed JSON value, the result shape of `json.loads` on tool arguments. -/
inductive JVal where
  | jstr (s : Str)
  | jnum (n : Int)
  | jbool (b : Bool)
  | jnull
  | jarr (xs : List JVal)
  | jobj (fields : List (Str × JVal))

/-- A parsed JSON object (tool-call arguments dict). -/
abbrev JObj := List (Str × JVal)

/-- `args.get(k, d)`. -/
def jget (args : JObj) (k : Str) (d : JVal) : JVal :=
  match args.find? (fun kv => kv.1 = k) with
  | some kv => kv.2
  | none => d

/-- `tool_call.function` with `name` and the raw `arguments` JSON string. -/
structure ToolFunction where
  name : Str
  arguments : Str
deriving DecidableEq

/-- One tool call issued by the model. -/
structure ToolCall where
  id : Str
  function : ToolFunction
deriving DecidableEq

/-- A provider response as the loop consumes it. -/
structure LLMResponse where
  content : Option Str
  tool_calls : List ToolCall

/-- Conversation message (typed view of the role dicts the loop builds). -/
inductive Msg where
  | system (content : Str)
  | user (content : Str)
  | assistant (content : Option Str) (tool_calls : List ToolCall)
  | tool (tool_call_id : Str) (content : Str)

/-- Default account label `"work"`. -/
def workLabel : JVal := .jstr (("work").data)

/-- `x or []` on an optional-list argument. -/
def orEmptyList (v : JVal) : JVal :=
  match v with
  | .jnull => .jarr []
  | v => v

/-- The per-tool positional argument extraction of `execute_tool`'s dispatch:
`some` of the arguments handed to the tool implementation for a known tool
name, `none` for an unknown one.  Values are taken from the parsed arguments
dict exactly as the code's `args.get(...)` calls do — no transformation
(in particular no unmasking) is applied to them. -/
def extractArgs (fname : Str) (args : JObj) : Option (List JVal) :=
  if fname = ("list_emails").data then
    some [jget args (("account_label").data) workLabel,
          jget args (("filters").data) (.jobj [])]
  else if fname = ("list_events").data then
    some [jget args (("account_label").data) workLabel,
          jget args (("start_time").data) .jnull,
          jget args (("end_time").data) .jnull]
  else if fname = ("find_free_slots").data then
    some [jget args (("account_label").data) workLabel,
          jget args (("start_time").data) .jnull,
          jget args (("end_time").data) .jnull,
          jget args (("duration_minutes").data) .jnull]
  else if fname = ("create_event").data then
    some [jget args (("account_label").data) workLabel,
          jget args (("summary").data) (.jstr (("Untitled").data)),
          jget args (("start_time").data) .jnull,
          jget args (("end_time").data) .jnull,
          orEmptyList (jget args (("attendees").data) .jnull)]
  else if fname = ("reply_email").data then
    some [jget args (("account_label").data) workLabel,
          jget args (("message_id").data) .jnull,
          jget args (("body").data) .jnull,
          jget args (("reply_all").data) (.jbool false)]
  else if fname = ("forward_email").data then
    some [jget args (("account_label").data) workLabel,
          jget args (("message_id").data) .jnull,
          jget args (("to").data) .jnull,
          jget args (("body").data) .jnull]
  else if fname = ("delete_emails").data then
    some [jget args (("account_label").data) workLabel,
          jget args (("message_ids").data) .jnull,
          jget args (("hard_delete").data) (.jbool false)]
  else if fname = ("get_event").data then
    some [jget args (("account_label").data) workLabel,
          jget args (("event_id").data) .jnull]
  else if fname = ("update_event").data then
    some [jget args (("account_label").data) workLabel,
          jget args (("event_id").data) .jnull,
          .jobj (args.filter (fun kv =>
            !(kv.1 = ("account_label").data || kv.1 = ("event_id").data)))]
  else if fname = ("delete_event").data then
    some [jget args (("account_label").data) workLabel,
          jget args (("event_id").data) .jnull]
  else if fname = ("respond_to_invitation").data then
    some [jget args (("account_label").data) workLabel,
          jget args (("event_id").data) .jnull,
          jget args (("response").data) .jnull]
  else if fname = ("mark_email_as_read").data then
    some [jget args (("account_label").data) workLabel,
          jget args (("message_id").data) .jnull]
  else if fname = ("mark_email_as_unread").data then
    some [jget args (("account_label").data) workLabel,
          jget args (("message_id").data) .jnull]
  else if fname = ("star_email").data then
    some [jget args (("account_label").data) workLabel,
          jget args (("message_id").data) .jnull]
  else none

/-- The `role="tool"` result message appended for one tool call. -/
structure ToolMsg where
  tool_call_id : Str
  content : Str
deriving DecidableEq

/-- `execute_tool`: dispatch on the tool name; an unknown name yields
`"Error: Unknown tool ..."`, an exception from the implementation yields
`"Error executing ...: ..."`; the result always becomes a tool message
correlated to the call id, never an exception. -/
def execute_tool (impl : Str → List JVal → Except Str Str)
    (fname : Str) (args : JObj) (cid : Str) : ToolMsg :=
  let res :=
    match extractArgs fname args with
    | none => ("Error: Unknown tool ").data ++ fname
    | some ex =>
      match impl fname ex with
      | .ok s => s
      | .error e => ("Error executing ").data ++ fname ++ (": ").data ++ e
  { tool_call_id := cid, content := res }

/-- `json.loads` applied to each tool call while the task list is built:
the first failure aborts the whole turn (the coroutines already created are
never awaited), so `none` is returned and no tool of the turn runs. -/
def parseCalls (parse : Str → Option JObj) : List ToolCall → Option (List (ToolCall × JObj))
  | [] => some []
  | tc :: tcs =>
    match parse tc.function.arguments with
    | none => none
    | some o => (parseCalls parse tcs).map (fun r => (tc, o) :: r)

/-- `max_turns = 5` in `process_request`. -/
def secretaryMaxTurns : Nat := 5

/-- The fixed message returned when the loop exhausts its turns. -/
def fallbackMsg : Str :=
  ("I reached the maximum number of steps and couldn't finish the task.").data

/-- `message_content or "I'm done."` for a tool-free response. -/
def doneMsg : Str := ("I'm done.").data

/-- Exception marker for a `json.loads` failure escaping the loop. -/
def jsonErrorMsg : Str := ("JSONDecodeError").data

deriving instance DecidableEq for Except

/-- Outcome of a `process_request` run: the returned string or the escaped
exception, together with the number of provider `generate` calls made. -/
structure RunResult where
  result : Except Str Str
  modelCalls : Nat
deriving DecidableEq

/-- The agent loop of `process_request` (`for _ in range(max_turns)`),
with the provider, `json.loads` and the tool implementations as oracles:
call the model; a tool-free response returns its content (or `doneMsg` if
falsy); otherwise parse all argument strings (a parse failure raises),
execute every call via `execute_tool`, append the tool messages and loop;
an exhausted budget returns `fallbackMsg`. -/
def agentLoop (gen : List Msg → LLMResponse) (parse : Str → Option JObj)
    (impl : Str → List JVal → Except Str Str) : List Msg → Nat → RunResult
  | _, 0 => { result := .ok fallbackMsg, modelCalls := 0 }
  | msgs, fuel + 1 =>
    let resp := gen msgs
    let msgs1 := msgs ++ [Msg.assistant resp.content resp.tool_calls]
    match resp.tool_calls with
    | [] =>
      { result := .ok (match resp.content with
                       | some c => if c = [] then doneMsg else c
                       | none => doneMsg)
        modelCalls := 1 }
    | tcs =>
      match parseCalls parse tcs with
      | none => { result := .error jsonErrorMsg, modelCalls := 1 }
      | some parsed =>
        let results := parsed.map (fun pr => execute_tool impl pr.1.function.name pr.2 pr.1.id)
        let msgs2 := msgs1 ++ results.map (fun r => Msg.tool r.tool_call_id r.content)
        let r := agentLoop gen parse impl msgs2 fuel
        { result := r.result, modelCalls := r.modelCalls + 1 }

/-- `process_request`: build the message list (system prompt, last 8 history
messages, the user query verbatim — no masking of any kind) and run the
agent loop with the hard-coded budget. -/
def process_request (gen : List Msg → LLMResponse) (parse : Str → Option JObj)
    (impl : Str → List JVal → Except Str Str)
    (systemPrompt : Str) (history : List Msg) (query : Str) : RunResult :=
  let msgs := Msg.system systemPrompt ::
    history.drop (history.length - 8) ++ [Msg.user query]
  agentLoop gen parse impl msgs secretaryMaxTurns

end SecretaryService

namespace OpenAIProvider

/-- `settings.OPENAI_MAX_COMPLETION_TOKENS` (config default). -/
def OPENAI_MAX_COMPLETION_TOKENS : Nat := 2048

/-- `self.default_model`. -/
def default_model : Str := ("gpt-5-mini").data

/-- Options dict consumed by `generate` (the optional `tool_runner`
auto-loop is not exercised by any claim and is omitted). -/
structure GenOptions where
  model : Option Str := none
  max_completion_tokens : Option Nat := none
  temperature : Option Int := none
  tools : List Str := []
  tool_choice : Option Str := none
  previous_response_id : Option Str := none

/-- The outgoing request `generate` hands to the network client, for either
API branch (`api` is the capability's `api_type`). -/
structure ProviderRequest where
  api : Str
  model : Str
  max_tokens : Nat
  temperature : Option Int
  tools : List Str
  tool_choice : Option Str
  previous_response_id : Option Str
deriving DecidableEq

/-- Response shape returned by `generate`. -/
structure ProviderResponse where
  content : Str
  tool_calls : List SecretaryService.ToolCall
deriving DecidableEq

/-- `options.get("model") or self.default_model`. -/
def resolvedModel (opts : GenOptions) : Str :=
  match opts.model with
  | some m => if m = [] then default_model else m
  | none => default_model

/-- The request `generate` builds before calling the client:
`options.get("model") or default`, `max_completion_tokens or settings...`
capped by a truthy capability ceiling, and the temperature dropped when the
capability registry says the model does not support it. -/
def buildRequest (opts : GenOptions) : ProviderRequest :=
  let model := resolvedModel opts
  let caps := ModelRegistry.get_capabilities model
  let configured := match opts.max_completion_tokens with
                    | some n => if n = 0 then OPENAI_MAX_COMPLETION_TOKENS else n
                    | none => OPENAI_MAX_COMPLETION_TOKENS
  let configured := match caps.max_output_tokens with
                    | some c => if c = 0 then configured else min configured c
                    | none => configured
  let temperature := match opts.temperature with
                     | some t => if caps.supports_temperature then some t else none
                     | none => none
  { api := caps.api_type
    model := model
    max_tokens := configured
    temperature := temperature
    tools := opts.tools
    tool_choice := opts.tool_choice
    previous_response_id := opts.previous_response_id }

/-- `generate` with the network client as an oracle: one request is issued
on either API branch; the `except` clause logs and re-raises, so every
client error surfaces unmodified and no retry of any kind is performed. -/
def generate (net : ProviderRequest → Except Str ProviderResponse)
    (opts : GenOptions) : Except Str ProviderResponse :=
  let req := buildRequest opts
  if req.api = ("responses").data then
    match net req with
    | .ok r => .ok r
    | .error e => .error e
  else
    match net req with
    | .ok r => .ok r
    | .error e => .error e

/-- The requests `generate` issues to the client (for counting calls). -/
def generateRequests (opts : GenOptions) : List ProviderRequest :=
  [buildRequest opts]

end OpenAIProvider

namespace PIIService

/-- Is `k` a token of exactly type `ty` (i.e. of the shape
`\x7b\x7bty_n\x7d\x7d` with `n` in canonical decimal)? -/
def exactTokenOfType (ty k : Str) : Bool :=
  let mid := (k.drop (ty.length + 3)).take (k.length - (ty.length + 5))
  k = mkToken ty (strVal mid)

end PIIService

namespace Fixtures

open SecretaryService OpenAIProvider

/-- A model stub that always answers with one further tool call whose
arguments string is not valid JSON. -/
def genBadJson : List Msg → LLMResponse := fun _ =>
  { content := none
    tool_calls := [{ id := ("call_1").data
                     function := { name := ("list_emails").data
                                   arguments := ("not json").data } }] }

/-- A second such stub (different call), for the malformed-arguments claim. -/
def genBadJson2 : List Msg → LLMResponse := fun _ =>
  { content := none
    tool_calls := [{ id := ("call_2").data
                     function := { name := ("list_events").data
                                   arguments := ("\x7bbroken").data } }] }

/-- `json.loads` oracle on the two malformed argument strings above:
both raise `JSONDecodeError`. -/
def parseFail : Str → Option JObj := fun _ => none

/-- A tool implementation that always succeeds. -/
def implOk : Str → List JVal → Except Str Str := fun _ _ => .ok (("done").data)

/-- A tool implementation whose body raises (`str(e) = "boom"`). -/
def implBoom : Str → List JVal → Except Str Str := fun _ _ => .error (("boom").data)

/-- A tool implementation echoing back the `filters.sender` argument it
received, to observe exactly what value the loop hands to the tool. -/
def pickSender : List JVal → Str
  | [_, .jobj fs] =>
    match jget fs (("sender").data) .jnull with
    | .jstr s => s
    | _ => []
  | _ => []

/-- Echoing implementation built on `pickSender`. -/
def implEcho : Str → List JVal → Except Str Str := fun _ ex => .ok (pickSender ex)

/-- The parsed arguments of the tool call in the repository's own
`verify_pii_secretary.py` scenario:
`'{"account_label": "work", "filters": {"sender": "{{EMAIL_1}}"}}'`. -/
def piiArgs : JObj :=
  [((("account_label").data), .jstr (("work").data)),
   ((("filters").data),
    .jobj [((("sender").data), .jstr (("\x7b\x7bEMAIL_1\x7d\x7d").data))])]

/-- A model stub that always answers with one further tool call whose
arguments string is the empty JSON object. -/
def genGoodTools : List Msg → LLMResponse := fun _ =>
  { content := none
    tool_calls := [{ id := ("call_g").data
                     function := { name := ("list_emails").data
                                   arguments := ("\x7b\x7d").data } }] }

/-- `json.loads` oracle for runs whose every arguments string is `"\x7b\x7d"`:
the empty object parses to the empty dict. -/
def parseEmptyObj : Str → Option JObj := fun _ => some []

/-- A network oracle that rejects any request carrying a temperature and
accepts one without, modelling the known "temperature unsupported" error. -/
def tempRejectNet : ProviderRequest → Except Str ProviderResponse := fun r =>
  match r.temperature with
  | some _ => .error (("Unsupported parameter: temperature").data)
  | none => .ok { content := ("hi").data, tool_calls := [] }

/-- Options with an explicit temperature for a model outside the registry
(its default descriptor supports temperature, so the value is forwarded). -/
def tempOpts : GenOptions :=
  { model := some (("gpt-4o-mini").data), temperature := some 1 }

/-- Options with an explicit temperature for an `o1`-family model, whose
descriptor does not support temperature. -/
def o1Opts : GenOptions :=
  { model := some (("o1-mini").data), temperature := some 1 }

/-- The regex-pass decomposition of the text `"EMAIL_1 a@b.com"`: of the 16
patterns only the EMAIL rule matches, on the whole-match span `a@b.com`
(no pattern matches inside `"EMAIL_1 "`, and no later pattern matches the
substituted output), so one `mat` piece captures the entire `mask` run. -/
def roundTripPieces : List PIIService.Piece :=
  [.lit (("EMAIL_1 ").data), .mat (("EMAIL").data) [] (("a@b.com").data) []]

/-- A mapping scope that already holds one `ADDRESS_UA` token, as left by a
previous `mask` call on a Ukrainian street address. -/
def m5 : Mapping :=
  [(PIIService.mkToken (("ADDRESS_UA").data) 1, ("вул. Хрещатик 1").data)]

/-- Decomposition of a text with three distinct emails (only the EMAIL rule
matches each address; the separators match no rule). -/
def emailPieces : List PIIService.Piece :=
  [.mat (("EMAIL").data) [] (("a@b.com").data) [],
   .lit ((", ").data),
   .mat (("EMAIL").data) [] (("c@d.com").data) [],
   .lit ((", ").data),
   .mat (("EMAIL").data) [] (("e@f.com").data) []]

end Fixtures

/-! ### Lemmas about the string primitives -/

theorem natStrF_congr (n : Nat) : ∀ f g, n < f → n < g → natStrF f n = natStrF g n := by
  induction n using Nat.strong_induction_on with
  | _ n ih =>
    intro f g hf hg
    cases f with
    | zero => omega
    | succ f =>
      cases g with
      | zero => omega
      | succ g =>
        by_cases h : n < 10
        · simp [natStrF, h]
        · have hdiv : n / 10 < n := Nat.div_lt_self (by omega) (by omega)
          simp only [natStrF, h, if_false]
          rw [ih (n / 10) hdiv f g (by omega) (by omega)]

theorem natStr_eq (n : Nat) :
    natStr n = if n < 10 then [digitChar n] else natStr (n / 10) ++ [digitChar (n % 10)] := by
  have step : natStr n =
      if n < 10 then [digitChar n] else natStrF n (n / 10) ++ [digitChar (n % 10)] := rfl
  rw [step]
  by_cases h : n < 10
  · simp [h]
  · have hdiv : n / 10 < n := Nat.div_lt_self (by omega) (by omega)
    rw [if_neg h, if_neg h]
    congr 1
    exact natStrF_congr (n / 10) n (n / 10 + 1) (by omega) (by omega)

theorem replaceAllF_congr :
    ∀ (L : Nat) (s pat rep : Str), s.length ≤ L → ∀ f g, s.length < f → s.length < g →
      replaceAllF f s pat rep = replaceAllF g s pat rep := by
  intro L
  induction L with
  | zero =>
    intro s pat rep hlen f g hf hg
    have hs : s = [] := List.eq_nil_of_length_eq_zero (by omega)
    subst hs
    cases f with
    | zero => omega
    | succ f =>
      cases g with
      | zero => omega
      | succ g => rfl
  | succ L ihL =>
    intro s pat rep hlen f g hf hg
    cases f with
    | zero => omega
    | succ f =>
      cases g with
      | zero => omega
      | succ g =>
        cases s with
        | nil => rfl
        | cons c cs =>
          have hcs : cs.length ≤ L := by simp at hlen; omega
          have hcf : cs.length < f := by simp at hf; omega
          have hcg : cs.length < g := by simp at hg; omega
          simp only [replaceAllF]
          by_cases hp : pat = []
          · subst hp
            rw [if_pos rfl, if_pos rfl, ihL cs [] rep hcs f g hcf hcg]
          · rw [if_neg hp, if_neg hp]
            by_cases hpre : pat.isPrefixOf (c :: cs) = true
            · rw [if_pos hpre, if_pos hpre]
              have hplen : 0 < pat.length := List.length_pos.mpr hp
              have hdlen : ((c :: cs).drop pat.length).length ≤ L := by
                rw [List.length_drop]
                simp only [List.length_cons]
                omega
              rw [ihL ((c :: cs).drop pat.length) pat rep hdlen f g
                (by rw [List.length_drop]; simp only [List.length_cons]; omega)
                (by rw [List.length_drop]; simp only [List.length_cons]; omega)]
            · rw [if_neg hpre, if_neg hpre, ihL cs pat rep hcs f g hcf hcg]

theorem replaceAll_nil (pat rep : Str) :
    replaceAll [] pat rep = if pat = [] then rep else [] := rfl

theorem replaceAll_cons (c : Char) (cs pat rep : Str) :
    replaceAll (c :: cs) pat rep =
      if pat = [] then rep ++ c :: replaceAll cs pat rep
      else if pat.isPrefixOf (c :: cs) then
        rep ++ replaceAll ((c :: cs).drop pat.length) pat rep
      else c :: replaceAll cs pat rep := by
  have base : replaceAll (c :: cs) pat rep =
      (if pat = [] then rep ++ c :: replaceAllF (cs.length + 1) cs pat rep
       else if pat.isPrefixOf (c :: cs) = true then
         rep ++ replaceAllF (cs.length + 1) ((c :: cs).drop pat.length) pat rep
       else c :: replaceAllF (cs.length + 1) cs pat rep) := rfl
  rw [base]
  by_cases hp : pat = []
  · rw [if_pos hp, if_pos hp]; rfl
  · rw [if_neg hp, if_neg hp]
    by_cases hpre : pat.isPrefixOf (c :: cs) = true
    · rw [if_pos hpre, if_pos hpre]
      congr 1
      exact replaceAllF_congr ((c :: cs).drop pat.length).length
        ((c :: cs).drop pat.length) pat rep (le_refl _) (cs.length + 1)
        (((c :: cs).drop pat.length).length + 1)
        (by rw [List.length_drop]; simp only [List.length_cons]
            have := List.length_pos.mpr hp; omega)
        (by omega)
    · rw [if_neg hpre, if_neg hpre]; rfl

theorem containsSeq_infix_iff (s pat : Str) : containsSeq s pat = true ↔ pat <:+: s := by
  induction s with
  | nil =>
    simp [containsSeq, List.infix_nil, List.isPrefixOf_iff_prefix, List.prefix_nil]
  | cons c cs ih =>
    rw [containsSeq]
    simp [List.infix_cons_iff, List.isPrefixOf_iff_prefix, ih]

theorem containsSeq_false_iff (s pat : Str) :
    containsSeq s pat = false ↔ ¬pat <:+: s := by
  constructor
  · intro h hc
    rw [← containsSeq_infix_iff, h] at hc
    exact Bool.false_ne_true hc
  · intro h
    cases hcs : containsSeq s pat
    · rfl
    · exact absurd ((containsSeq_infix_iff s pat).mp hcs) h

/-! ### Lemmas about the secretary loop -/

namespace SecretaryService

theorem parseCalls_some (parse : Str → Option JObj) :
    ∀ tcs : List ToolCall, (∀ tc ∈ tcs, parse tc.function.arguments ≠ none) →
      ∃ r, parseCalls parse tcs = some r := by
  intro tcs
  induction tcs with
  | nil => exact fun _ => ⟨[], rfl⟩
  | cons t ts ih =>
    intro h
    cases hp : parse t.function.arguments with
    | none => exact absurd hp (h t (by simp))
    | some o =>
      obtain ⟨r, hr⟩ := ih (fun tc htc => h tc (by simp [htc]))
      exact ⟨(t, o) :: r, by simp [parseCalls, hp, hr]⟩

theorem parseCalls_none (parse : Str → Option JObj) :
    ∀ tcs : List ToolCall, (∃ tc ∈ tcs, parse tc.function.arguments = none) →
      parseCalls parse tcs = none := by
  intro tcs
  induction tcs with
  | nil => rintro ⟨tc, htc, _⟩; exact absurd htc (List.not_mem_nil tc)
  | cons t ts ih =>
    rintro ⟨tc, htc, hp⟩
    rcases List.mem_cons.mp htc with heq | hmem
    · subst heq
      simp [parseCalls, hp]
    · cases hpt : parse t.function.arguments with
      | none => simp [parseCalls, hpt]
      | some o => simp [parseCalls, hpt, ih ⟨tc, hmem, hp⟩]

end SecretaryService

/-! ### Claim C7 -/

/-- C7: the capability lookup tries an exact table match first (the exact
`"gpt-5.1"` entry wins over the `gpt-5` family prefix rule), then the known
family-prefix rules, and otherwise — for every model id matching neither an
exact entry nor a known prefix — returns the hard-coded default descriptor,
which supports temperature and does not support tools. -/
theorem C7_capability_fallback :
    ModelRegistry.get_capabilities (("gpt-5.1").data) = ModelRegistry.gpt51 ∧
    (∀ mid : Str,
      ModelRegistry.capabilities.find? (fun kv => kv.1 = mid) = none →
      (("gpt-5").data).isPrefixOf mid = false →
      (("o1").data).isPrefixOf mid = false →
      ModelRegistry.get_capabilities mid = ModelRegistry.defaults) ∧
    ModelRegistry.defaults.supports_temperature = true ∧
    ModelRegistry.defaults.supports_tools = false := by
  refine ⟨by decide, ?_, rfl, rfl⟩
  intro mid h1 h2 h3
  unfold ModelRegistry.get_capabilities
  by_cases hm : mid = []
  · simp [hm]
  · simp [hm, h1, h2, h3]

/-- Witness for C7 at the unknown model id `"llama-3-70b"`. -/
theorem C7_capability_fallback_witness :
    ModelRegistry.get_capabilities (("llama-3-70b").data) = ModelRegistry.defaults ∧
    ModelRegistry.defaults.supports_temperature = true ∧
    ModelRegistry.defaults.supports_tools = false :=
  ⟨C7_capability_fallback.2.1 (("llama-3-70b").data) (by decide) (by decide) (by decide),
   C7_capability_fallback.2.2.1, C7_capability_fallback.2.2.2⟩

/-! ### Claim C3 -/

/-- C3 counterexample: a run in which every model response carries a tool
call can terminate after a single model call with a raised JSON decode
error instead of the fallback message, because `json.loads` is unguarded in
the loop; so the claim as stated (exactly `maxTurns` calls and the fixed
fallback message for all such runs) fails. -/
theorem C3_counterexample :
    (∀ ms, (Fixtures.genBadJson ms).tool_calls ≠ []) ∧
    SecretaryService.agentLoop Fixtures.genBadJson Fixtures.parseFail Fixtures.implOk []
        SecretaryService.secretaryMaxTurns =
      { result := .error SecretaryService.jsonErrorMsg, modelCalls := 1 } := by
  exact ⟨fun ms => by simp [Fixtures.genBadJson], rfl⟩

/-- C3 (amended): provided additionally that every issued tool call's
arguments string parses as JSON, a run whose model responses all request
at least one tool call makes exactly `maxTurns` model calls (the code fixes
`maxTurns = 5`; the statement holds for every budget, in particular 2) and
returns the fixed fallback message; and no run whatsoever makes more than
its turn budget of model calls. -/
theorem C3_loop_termination :
    (∀ gen parse impl msgs fuel,
      (∀ ms : List SecretaryService.Msg, (gen ms).tool_calls ≠ []) →
      (∀ (ms : List SecretaryService.Msg) (tc : SecretaryService.ToolCall),
        tc ∈ (gen ms).tool_calls → parse tc.function.arguments ≠ none) →
      SecretaryService.agentLoop gen parse impl msgs fuel =
        { result := .ok SecretaryService.fallbackMsg, modelCalls := fuel }) ∧
    (∀ gen parse impl msgs fuel,
      (SecretaryService.agentLoop gen parse impl msgs fuel).modelCalls ≤ fuel) := by
  constructor
  · intro gen parse impl msgs fuel h1 h2
    induction fuel generalizing msgs with
    | zero => rfl
    | succ fuel ih =>
      rw [SecretaryService.agentLoop]
      cases htc : (gen msgs).tool_calls with
      | nil => exact absurd htc (h1 msgs)
      | cons t ts =>
        obtain ⟨r, hr⟩ := SecretaryService.parseCalls_some parse (t :: ts)
          (fun tc hmem => h2 msgs tc (htc ▸ hmem))
        simp only [hr, ih]
  · intro gen parse impl msgs fuel
    induction fuel generalizing msgs with
    | zero => exact le_refl 0
    | succ fuel ih =>
      rw [SecretaryService.agentLoop]
      cases htc : (gen msgs).tool_calls with
      | nil => simp
      | cons t ts =>
        cases hp : SecretaryService.parseCalls parse (t :: ts) with
        | none => simp [hp]
        | some r =>
          simp only [hp]
          exact Nat.succ_le_succ (ih _)

/-- Witness for the amended C3: a stub always requesting a parseable tool
call exhausts budgets of 2 and 5 with exactly that many model calls and the
fallback message. -/
theorem C3_loop_termination_witness :
    SecretaryService.agentLoop Fixtures.genGoodTools Fixtures.parseEmptyObj Fixtures.implOk [] 2 =
      { result := .ok SecretaryService.fallbackMsg, modelCalls := 2 } ∧
    SecretaryService.agentLoop Fixtures.genGoodTools Fixtures.parseEmptyObj Fixtures.implOk []
        SecretaryService.secretaryMaxTurns =
      { result := .ok SecretaryService.fallbackMsg, modelCalls := 5 } :=
  ⟨C3_loop_termination.1 Fixtures.genGoodTools Fixtures.parseEmptyObj Fixtures.implOk [] 2
      (fun ms => by simp [Fixtures.genGoodTools])
      (fun ms tc _ => by simp [Fixtures.parseEmptyObj]),
   C3_loop_termination.1 Fixtures.genGoodTools Fixtures.parseEmptyObj Fixtures.implOk [] 5
      (fun ms => by simp [Fixtures.genGoodTools])
      (fun ms tc _ => by simp [Fixtures.parseEmptyObj])⟩

/-! ### Claim C9 -/

/-- C9 counterexample: a tool call whose arguments string is not valid JSON
is not treated as empty arguments — no tool is invoked at all (the per-call
parse step returns nothing before any execution), and the parse failure
escapes the run loop as an exception after the first model call. -/
theorem C9_counterexample :
    SecretaryService.parseCalls Fixtures.parseFail (Fixtures.genBadJson2 []).tool_calls =
      none ∧
    SecretaryService.agentLoop Fixtures.genBadJson2 Fixtures.parseFail Fixtures.implOk []
        SecretaryService.secretaryMaxTurns =
      { result := .error SecretaryService.jsonErrorMsg, modelCalls := 1 } :=
  ⟨rfl, rfl⟩

/-- C9 (amended): in `SecretaryService.process_request` a tool call whose
arguments string fails to parse raises the JSON decode error out of the run
loop, terminating the run after the current model call; no tool of that
turn is invoked and no empty-arguments fallback exists in this loop. -/
theorem C9_malformed_arguments (gen parse impl)
    (msgs : List SecretaryService.Msg) (fuel : Nat)
    (hne : (gen msgs).tool_calls ≠ [])
    (hbad : ∃ tc ∈ (gen msgs).tool_calls, parse tc.function.arguments = none) :
    SecretaryService.agentLoop gen parse impl msgs (fuel + 1) =
      { result := .error SecretaryService.jsonErrorMsg, modelCalls := 1 } := by
  rw [SecretaryService.agentLoop]
  cases htc : (gen msgs).tool_calls with
  | nil => exact absurd htc hne
  | cons t ts =>
    have hnone := SecretaryService.parseCalls_none parse (t :: ts) (htc ▸ hbad)
    simp only [hnone]

/-- Witness for the amended C9 at a concrete malformed-JSON run. -/
theorem C9_malformed_arguments_witness :
    SecretaryService.agentLoop Fixtures.genBadJson Fixtures.parseFail Fixtures.implOk
        [SecretaryService.Msg.user (("hello").data)] 3 =
      { result := .error SecretaryService.jsonErrorMsg, modelCalls := 1 } :=
  C9_malformed_arguments Fixtures.genBadJson Fixtures.parseFail Fixtures.implOk
    [SecretaryService.Msg.user (("hello").data)] 2
    (by simp [Fixtures.genBadJson])
    ⟨{ id := ("call_1").data
       function := { name := ("list_emails").data, arguments := ("not json").data } },
     by simp [Fixtures.genBadJson], rfl⟩

/-! ### Claim C10 -/

/-- C10 counterexample: an exception raised by the tool implementation
produces the string `"Error executing list_emails: boom"`, which does not
start with `"Error:"` (only unknown tool names produce an `"Error:"`-prefixed
string), so the claim as stated fails for the exception case. -/
theorem C10_counterexample :
    SecretaryService.execute_tool Fixtures.implBoom (("list_emails").data) []
        (("call_9").data) =
      { tool_call_id := ("call_9").data
        content := ("Error executing list_emails: boom").data } ∧
    (("Error:").data).isPrefixOf (("Error executing list_emails: boom").data) = false :=
  ⟨rfl, by decide⟩

/-- C10 (amended): `execute_tool` never raises for business-logic failures
and always yields a tool message correlated to the call id: an unrecognized
tool name yields `"Error: Unknown tool <name>"` (starting with `"Error:"`),
an exception from the tool implementation yields
`"Error executing <name>: <msg>"` (starting with `"Error executing"`, not
with `"Error:"`), and a successful result is passed through unchanged. -/
theorem C10_tool_errors (impl : Str → List SecretaryService.JVal → Except Str Str)
    (fname : Str) (args : SecretaryService.JObj) (cid : Str) :
    (SecretaryService.execute_tool impl fname args cid).tool_call_id = cid ∧
    (SecretaryService.extractArgs fname args = none →
      (SecretaryService.execute_tool impl fname args cid).content =
        ("Error: Unknown tool ").data ++ fname ∧
      (("Error:").data).isPrefixOf
        ((SecretaryService.execute_tool impl fname args cid).content) = true) ∧
    (∀ ex e, SecretaryService.extractArgs fname args = some ex → impl fname ex = .error e →
      (SecretaryService.execute_tool impl fname args cid).content =
        ("Error executing ").data ++ fname ++ (": ").data ++ e ∧
      (("Error executing").data).isPrefixOf
        ((SecretaryService.execute_tool impl fname args cid).content) = true) ∧
    (∀ ex s, SecretaryService.extractArgs fname args = some ex → impl fname ex = .ok s →
      (SecretaryService.execute_tool impl fname args cid).content = s) := by
  refine ⟨rfl, ?_, ?_, ?_⟩
  · intro hnone
    constructor
    · simp [SecretaryService.execute_tool, hnone]
    · simp only [SecretaryService.execute_tool, hnone]
      rw [List.isPrefixOf_iff_prefix]
      exact List.IsPrefix.trans (by decide) (List.prefix_append _ _)
  · intro ex e hex he
    constructor
    · simp [SecretaryService.execute_tool, hex, he]
    · simp only [SecretaryService.execute_tool, hex, he]
      rw [List.isPrefixOf_iff_prefix]
      exact ((List.IsPrefix.trans (by decide) (List.prefix_append _ _)).trans
        (List.prefix_append _ _)).trans (List.prefix_append _ _)
  · intro ex s hex hs
    simp [SecretaryService.execute_tool, hex, hs]

/-- Witness for the amended C10: unknown-tool and exception cases at
concrete inputs. -/
theorem C10_tool_errors_witness :
    (SecretaryService.execute_tool Fixtures.implOk (("frobnicate").data) []
      (("call_w").data)).content = ("Error: Unknown tool ").data ++ ("frobnicate").data ∧
    (SecretaryService.execute_tool Fixtures.implBoom (("star_email").data) []
      (("call_x").data)).content =
        ("Error executing ").data ++ ("star_email").data ++ (": ").data ++ ("boom").data ∧
    (SecretaryService.execute_tool Fixtures.implBoom (("star_email").data) []
      (("call_x").data)).tool_call_id = ("call_x").data :=
  ⟨((C10_tool_errors Fixtures.implOk (("frobnicate").data) [] (("call_w").data)).2.1
      rfl).1,
   ((C10_tool_errors Fixtures.implBoom (("star_email").data) [] (("call_x").data)).2.2.1
      _ (("boom").data) rfl rfl).1,
   (C10_tool_errors Fixtures.implBoom (("star_email").data) [] (("call_x").data)).1⟩

/-! ### Claim C2 -/

/-- C2: the secretary loop performs no argument unmasking whatsoever.  With
the parsed arguments of the repository's own `verify_pii_secretary.py`
scenario (`filters.sender = "\x7b\x7bEMAIL_1\x7d\x7d"`), the value handed to
the tool implementation is the literal token, not the plaintext address the
script's assertions demand. -/
theorem C2_no_argument_unmasking :
    SecretaryService.execute_tool Fixtures.implEcho (("list_emails").data)
        Fixtures.piiArgs (("call_123").data) =
      { tool_call_id := ("call_123").data
        content := ("\x7b\x7bEMAIL_1\x7d\x7d").data } ∧
    SecretaryService.extractArgs (("list_emails").data) Fixtures.piiArgs =
      some [.jstr (("work").data),
            .jobj [((("sender").data), .jstr (("\x7b\x7bEMAIL_1\x7d\x7d").data))]] ∧
    ("\x7b\x7bEMAIL_1\x7d\x7d").data ≠ ("test@example.com").data :=
  ⟨rfl, rfl, by decide⟩

/-! ### Claim C8 -/

/-- C8 counterexample: on a temperature-related rejection `generate` does
not retry — it surfaces the error although the same client call without
temperature would have succeeded. -/
theorem C8_counterexample :
    OpenAIProvider.generate Fixtures.tempRejectNet Fixtures.tempOpts =
      .error (("Unsupported parameter: temperature").data) ∧
    Fixtures.tempRejectNet
        { OpenAIProvider.buildRequest Fixtures.tempOpts with temperature := none } =
      .ok { content := ("hi").data, tool_calls := [] } :=
  ⟨rfl, rfl⟩

/-- C8 (amended): `generate` issues exactly one client request per call and
every client error propagates to the caller unmodified — there is no retry
of any kind; temperature handling is proactive instead: when the capability
descriptor marks the model as not supporting temperature, the single
request is built with temperature omitted. -/
theorem C8_no_retry (net : OpenAIProvider.ProviderRequest →
      Except Str OpenAIProvider.ProviderResponse) (opts : OpenAIProvider.GenOptions) :
    OpenAIProvider.generate net opts = net (OpenAIProvider.buildRequest opts) ∧
    OpenAIProvider.generateRequests opts = [OpenAIProvider.buildRequest opts] ∧
    (∀ e, net (OpenAIProvider.buildRequest opts) = .error e →
      OpenAIProvider.generate net opts = .error e) ∧
    ((ModelRegistry.get_capabilities
        (OpenAIProvider.resolvedModel opts)).supports_temperature = false →
      (OpenAIProvider.buildRequest opts).temperature = none) := by
  have h1 : OpenAIProvider.generate net opts = net (OpenAIProvider.buildRequest opts) := by
    unfold OpenAIProvider.generate
    by_cases hapi : (OpenAIProvider.buildRequest opts).api = ("responses").data <;>
      cases hnet : net (OpenAIProvider.buildRequest opts) <;> simp [hapi, hnet]
  refine ⟨h1, rfl, fun e he => by rw [h1, he], ?_⟩
  intro hcap
  simp only [OpenAIProvider.buildRequest]
  cases ht : opts.temperature <;> simp [hcap, ht]

/-- Witness for the amended C8 at an `o1`-family model: the one request is
built without temperature and the result is the client's own answer. -/
theorem C8_no_retry_witness :
    OpenAIProvider.generate Fixtures.tempRejectNet Fixtures.o1Opts =
      Fixtures.tempRejectNet (OpenAIProvider.buildRequest Fixtures.o1Opts) ∧
    (OpenAIProvider.buildRequest Fixtures.o1Opts).temperature = none :=
  ⟨(C8_no_retry Fixtures.tempRejectNet Fixtures.o1Opts).1,
   (C8_no_retry Fixtures.tempRejectNet Fixtures.o1Opts).2.2.2 (by decide)⟩

/-! ### Lemmas about the PII service -/

namespace PIIService

theorem bracePre_prefix_mkToken (ty : Str) (n : Nat) :
    (bracePre ty).isPrefixOf (mkToken ty n) = true := by
  rw [List.isPrefixOf_iff_prefix]
  exact ⟨usc :: natStr n ++ [rbr, rbr], by simp [bracePre, mkToken]⟩

theorem findExisting_none (m : Mapping) (ty v : Str) (h : ∀ kv ∈ m, kv.2 ≠ v) :
    findExisting m ty v = none := by
  have : m.find? (fun kv => kv.2 = v && (bracePre ty).isPrefixOf kv.1) = none := by
    rw [List.find?_eq_none]
    intro kv hkv
    simp [h kv hkv]
  simp [findExisting, this]

theorem dictInsert_fresh (m : Mapping) (k v : Str)
    (h : m.any (fun kv => kv.1 = k) = false) :
    dictInsert m k v = m ++ [(k, v)] := by
  simp only [dictInsert, h]
  rfl

theorem insertByLen_perm (x : Str × Str) (l : List (Str × Str)) :
    (insertByLen x l).Perm (x :: l) := by
  induction l with
  | nil => exact List.Perm.refl _
  | cons y ys ih =>
    by_cases h : x.1.length < y.1.length
    · simp only [insertByLen, h, if_true]
      exact (ih.cons y).trans (List.Perm.swap x y ys)
    · simp only [insertByLen, h, if_false]
      exact List.Perm.refl _

theorem sortByLen_perm (l : List (Str × Str)) : (sortByLen l).Perm l := by
  induction l with
  | nil => exact List.Perm.refl _
  | cons x xs ih => exact (insertByLen_perm x (sortByLen xs)).trans (ih.cons x)

theorem foldl_unmaskStep_skip (L : List (Str × Str)) (t : Str)
    (h : ∀ kv ∈ L, containsSeq t kv.1 = false) :
    L.foldl unmaskStep t = t := by
  induction L with
  | nil => rfl
  | cons kv L ih =>
    have hstep : unmaskStep t kv = t := by
      simp [unmaskStep, h kv (by simp)]
    rw [List.foldl_cons, hstep]
    exact ih (fun kv hkv => h kv (by simp [hkv]))

theorem foldl_unmaskStep_single (L : List (Str × Str)) (s v t : Str)
    (hmem : (s, v) ∈ L)
    (hnodup : (L.map Prod.fst).Nodup)
    (hothers : ∀ kv ∈ L, kv.1 ≠ s → containsSeq t kv.1 = false)
    (hocc : containsSeq t s = true)
    (hafter : ∀ kv ∈ L, containsSeq (replaceAll t s v) kv.1 = false) :
    L.foldl unmaskStep t = replaceAll t s v := by
  induction L with
  | nil => exact absurd hmem (List.not_mem_nil _)
  | cons kv L ih =>
    by_cases hks : kv.1 = s
    · have hnodup' : (kv.1 :: L.map Prod.fst).Nodup := by simpa using hnodup
      have hkv : kv = (s, v) := by
        rcases List.mem_cons.mp hmem with heq | hmemL
        · exact heq.symm
        · exfalso
          have hsl : s ∈ L.map Prod.fst := List.mem_map.mpr ⟨(s, v), hmemL, rfl⟩
          exact (List.nodup_cons.mp hnodup').1 (hks ▸ hsl)
      subst hkv
      have hstep : unmaskStep t (s, v) = replaceAll t s v := by
        simp [unmaskStep, hocc]
      rw [List.foldl_cons, hstep]
      exact foldl_unmaskStep_skip L (replaceAll t s v)
        (fun kv hkv => hafter kv (by simp [hkv]))
    · have hstep : unmaskStep t kv = t := by
        simp [unmaskStep, hothers kv (by simp) hks]
      rw [List.foldl_cons, hstep]
      have hmemL : (s, v) ∈ L := by
        rcases List.mem_cons.mp hmem with heq | hmemL
        · exact absurd (by rw [← heq]) hks
        · exact hmemL
      have hnodup' : (kv.1 :: L.map Prod.fst).Nodup := by simpa using hnodup
      exact ih hmemL ((List.nodup_cons.mp hnodup').2)
        (fun kv hkv hne => hothers kv (by simp [hkv]) hne)
        (fun kv hkv => hafter kv (by simp [hkv]))

theorem isBraced_mkBraced (s : Str) : isBraced (mkBraced s) = true := by
  simp only [isBraced, mkBraced, Bool.and_eq_true]
  constructor
  · rw [List.isPrefixOf_iff_prefix]
    exact ⟨s ++ [rbr, rbr], by simp⟩
  · rw [List.isSuffixOf_iff_suffix]
    exact ⟨lbr :: lbr :: s, by simp⟩

theorem stripBraces_mkBraced (s : Str) : stripBraces (mkBraced s) = s := by
  have hlen : (mkBraced s).length = s.length + 4 := by
    simp [mkBraced]
  simp only [stripBraces]
  rw [hlen]
  have hdrop : (mkBraced s).drop 2 = s ++ [rbr, rbr] := rfl
  rw [hdrop]
  have h4 : s.length + 4 - 4 = s.length := by omega
  rw [h4]
  exact List.take_left s [rbr, rbr]

theorem mem_extendMapping_of_mem (m : Mapping) (k v : Str) (h : (k, v) ∈ m) :
    (k, v) ∈ extendMapping m ∧
    (isBraced k = true → (stripBraces k, v) ∈ extendMapping m) := by
  induction m with
  | nil => exact absurd h (List.not_mem_nil _)
  | cons kv rest ih =>
    rcases List.mem_cons.mp h with heq | hmem
    · subst heq
      constructor
      · simp [extendMapping]
      · intro hb
        simp [extendMapping, hb]
    · constructor
      · simp [extendMapping, (ih hmem).1]
      · intro hb
        simp [extendMapping, (ih hmem).2 hb]

theorem containsSeq_append_left (p x : Str) : containsSeq (p ++ x) p = true := by
  rw [containsSeq_infix_iff]
  exact ⟨[], x, by simp⟩

theorem containsSeq_cons_mono (c : Char) (x p : Str) (h : containsSeq x p = true) :
    containsSeq (c :: x) p = true := by
  rw [containsSeq_infix_iff] at h ⊢
  exact h.trans (by exact ⟨[c], [], by simp⟩)

theorem containsSeq_replaceAll_rep (t pat rep : Str) (hp : pat ≠ [])
    (h : containsSeq t pat = true) :
    containsSeq (replaceAll t pat rep) rep = true := by
  induction t with
  | nil =>
    rw [containsSeq] at h
    have : pat.isPrefixOf [] = true := by
      cases hb : pat.isPrefixOf [] with
      | true => rfl
      | false => rw [hb] at h; exact absurd h (by simp)
    rw [List.isPrefixOf_iff_prefix] at this
    exact absurd (List.prefix_nil.mp this) hp
  | cons c cs ih =>
    rw [replaceAll_cons, if_neg hp]
    by_cases hpre : pat.isPrefixOf (c :: cs) = true
    · rw [if_pos hpre]
      exact containsSeq_append_left rep _
    · rw [if_neg hpre]
      apply containsSeq_cons_mono
      apply ih
      rw [containsSeq] at h
      rcases Bool.or_eq_true_iff.mp h with h1 | h2
      · exact absurd h1 hpre
      · exact h2

end PIIService

/-! ### Claim C4 -/

/-- C4: within one mapping scope, masking two match occurrences of the same
original value under the same type (whether in one `mask` call or across
calls sharing the mapping) yields the same token for both occurrences, and
the mapping ends up with exactly one entry for that value: the first
occurrence allocates the token, the second hits the dedup lookup. -/
theorem C4_dedup (m : Mapping) (ty v w pre1 suf1 pre2 suf2 : Str)
    (hv : v ≠ [])
    (hval : m.countP (fun kv => kv.2 = v) = 0)
    (hfresh : m.any
      (fun kv => kv.1 = PIIService.mkToken ty (PIIService.prefCount m ty + 1)) = false) :
    ∃ tok,
      tok = PIIService.mkToken ty (PIIService.prefCount m ty + 1) ∧
      (PIIService.maskPieces m
        [.mat ty pre1 v suf1, .lit w, .mat ty pre2 v suf2]).1 =
        pre1 ++ tok ++ suf1 ++ w ++ pre2 ++ tok ++ suf2 ∧
      (PIIService.maskPieces m
        [.mat ty pre1 v suf1, .lit w, .mat ty pre2 v suf2]).2 = m ++ [(tok, v)] ∧
      (m ++ [(tok, v)]).countP (fun kv => kv.2 = v) = 1 := by
  have hne : ∀ kv ∈ m, kv.2 ≠ v := by
    intro kv hkv
    have := List.countP_eq_zero.mp hval kv hkv
    simpa using this
  have hfind : PIIService.findExisting m ty v = none :=
    PIIService.findExisting_none m ty v hne
  refine ⟨PIIService.mkToken ty (PIIService.prefCount m ty + 1), rfl, ?_, ?_, ?_⟩
  all_goals
    have halloc1 : PIIService.allocate m ty v =
        (PIIService.mkToken ty (PIIService.prefCount m ty + 1),
         m ++ [(PIIService.mkToken ty (PIIService.prefCount m ty + 1), v)]) := by
      simp only [PIIService.allocate, hfind]
      rw [PIIService.dictInsert_fresh m _ v hfresh]
    have hfind2 : PIIService.findExisting
        (m ++ [(PIIService.mkToken ty (PIIService.prefCount m ty + 1), v)]) ty v =
        some (PIIService.mkToken ty (PIIService.prefCount m ty + 1)) := by
      have h1 : m.find?
          (fun kv => kv.2 = v && (PIIService.bracePre ty).isPrefixOf kv.1) = none := by
        rw [List.find?_eq_none]
        intro kv hkv
        simp [hne kv hkv]
      simp [PIIService.findExisting, List.find?_append, h1,
        PIIService.bracePre_prefix_mkToken]
    have halloc2 : PIIService.allocate
        (m ++ [(PIIService.mkToken ty (PIIService.prefCount m ty + 1), v)]) ty v =
        (PIIService.mkToken ty (PIIService.prefCount m ty + 1),
         m ++ [(PIIService.mkToken ty (PIIService.prefCount m ty + 1), v)]) := by
      simp only [PIIService.allocate, hfind2]
  · simp only [PIIService.maskPieces, PIIService.replaceMatchPiece, if_neg hv,
      halloc1, halloc2]
    simp [List.append_assoc]
  · simp only [PIIService.maskPieces, PIIService.replaceMatchPiece, if_neg hv,
      halloc1, halloc2]
  · rw [List.countP_append]
    rw [hval]
    simp

/-- Witness for C4 at two occurrences of the same email in one scope. -/
theorem C4_dedup_witness :
    (PIIService.maskPieces []
      [.mat (("EMAIL").data) [] (("a@b.com").data) [],
       .lit ((" and ").data),
       .mat (("EMAIL").data) [] (("a@b.com").data) []]).2 =
      [(PIIService.mkToken (("EMAIL").data) 1, ("a@b.com").data)] ∧
    ([] ++ [(PIIService.mkToken (("EMAIL").data) 1, ("a@b.com").data)] :
      Mapping).countP (fun kv => kv.2 = ("a@b.com").data) = 1 := by
  obtain ⟨tok, htok, _, hmap, hcount⟩ :=
    C4_dedup [] (("EMAIL").data) (("a@b.com").data) ((" and ").data) [] [] [] []
      (by decide) (by decide) (by decide)
  rw [htok] at hmap hcount
  have hpc : PIIService.prefCount [] (("EMAIL").data) = 0 := rfl
  rw [hpc] at hmap hcount
  exact ⟨hmap, hcount⟩

/-! ### Claim C5 -/

/-- C5 counterexample: with an `ADDRESS_UA` token already in the scope, the
first distinct `ADDRESS` value is numbered 2, although zero tokens of exact
type `ADDRESS` exist — the counter is the `"\x7b\x7bTYPE"` string-prefix
count, not a per-exact-TYPE count, so the claim's `n` (counting only tokens
of that exact TYPE, which would give 1 here) is wrong. -/
theorem C5_counterexample :
    (Fixtures.m5.countP
      (fun kv => PIIService.exactTokenOfType (("ADDRESS").data) kv.1)) = 0 ∧
    (PIIService.allocate Fixtures.m5 (("ADDRESS").data) (("12 Main St").data)).1 =
      PIIService.mkToken (("ADDRESS").data) 2 ∧
    PIIService.mkToken (("ADDRESS").data) 2 ≠ PIIService.mkToken (("ADDRESS").data) 1 := by
  decide

/-- C5 (amended): the `n` of a freshly allocated token `TYPE_n` is one plus
the number of existing keys that start with the string `"\x7b\x7bTYPE"` —
so tokens of a type whose name extends `TYPE` (e.g. `ADDRESS_UA` for
`ADDRESS`) also count; for type names that are not a prefix of another
type's name (such as `EMAIL`) this coincides with counting only that exact
type, giving `EMAIL_1`, `EMAIL_2`, `EMAIL_3` in first-seen order.  The
prefix count grows by exactly one at each allocation, allocations only
append, and existing entries are never renumbered. -/
theorem C5_token_numbering :
    (∀ (m : Mapping) (ty v : Str),
      PIIService.findExisting m ty v = none →
      m.any (fun kv =>
        kv.1 = PIIService.mkToken ty (PIIService.prefCount m ty + 1)) = false →
      (PIIService.allocate m ty v).1 =
        PIIService.mkToken ty (PIIService.prefCount m ty + 1) ∧
      (PIIService.allocate m ty v).2 =
        m ++ [(PIIService.mkToken ty (PIIService.prefCount m ty + 1), v)] ∧
      PIIService.prefCount (PIIService.allocate m ty v).2 ty =
        PIIService.prefCount m ty + 1 ∧
      (∀ kv ∈ m, kv ∈ (PIIService.allocate m ty v).2)) ∧
    (PIIService.maskPieces [] Fixtures.emailPieces).2 =
      [(PIIService.mkToken (("EMAIL").data) 1, ("a@b.com").data),
       (PIIService.mkToken (("EMAIL").data) 2, ("c@d.com").data),
       (PIIService.mkToken (("EMAIL").data) 3, ("e@f.com").data)] := by
  constructor
  · intro m ty v hfind hfresh
    have halloc : PIIService.allocate m ty v =
        (PIIService.mkToken ty (PIIService.prefCount m ty + 1),
         m ++ [(PIIService.mkToken ty (PIIService.prefCount m ty + 1), v)]) := by
      simp only [PIIService.allocate, hfind]
      rw [PIIService.dictInsert_fresh m _ v hfresh]
    refine ⟨by rw [halloc], by rw [halloc], ?_, ?_⟩
    · rw [halloc]
      simp only [PIIService.prefCount, List.countP_append]
      simp [PIIService.bracePre_prefix_mkToken]
    · intro kv hkv
      rw [halloc]
      exact List.mem_append_left _ hkv
  · decide

/-- Witness for the amended C5: allocating a second `ADDRESS_UA` value in
the `m5` scope yields `ADDRESS_UA_2`, appended after the existing entry. -/
theorem C5_token_numbering_witness :
    (PIIService.allocate Fixtures.m5 (("ADDRESS_UA").data) (("просп. Перемоги 2").data)).1 =
      PIIService.mkToken (("ADDRESS_UA").data) 2 ∧
    (PIIService.allocate Fixtures.m5 (("ADDRESS_UA").data) (("просп. Перемоги 2").data)).2 =
      Fixtures.m5 ++ [(PIIService.mkToken (("ADDRESS_UA").data) 2, ("просп. Перемоги 2").data)] := by
  have h := C5_token_numbering.1 Fixtures.m5 (("ADDRESS_UA").data)
    (("просп. Перемоги 2").data) (by decide) (by decide)
  have hpc : PIIService.prefCount Fixtures.m5 (("ADDRESS_UA").data) = 1 := by decide
  refine ⟨?_, ?_⟩
  · rw [h.1, hpc]
  · rw [h.2.1, hpc]

/-! ### Claim C6 -/

/-- C6: if a braced token of the mapping appears in the text with its braces
stripped, `unmask` replaces the bare occurrence with the original value: the
candidate set holds both the braced and the bare form of every token and is
applied longest key first, so under the stated non-interference side
conditions the result is exactly the text with the bare form replaced by the
original, and the original value occurs in the output. -/
theorem C6_brace_tolerance (m : Mapping) (s v text : Str)
    (hs : s ≠ [])
    (hmem : (PIIService.mkBraced s, v) ∈ m)
    (hnodup : ((PIIService.extendMapping m).map Prod.fst).Nodup)
    (hothers : ∀ kv ∈ PIIService.extendMapping m, kv.1 ≠ s →
      containsSeq text kv.1 = false)
    (hocc : containsSeq text s = true)
    (hafter : ∀ kv ∈ PIIService.extendMapping m,
      containsSeq (replaceAll text s v) kv.1 = false) :
    PIIService.unmask text m = replaceAll text s v ∧
    containsSeq (PIIService.unmask text m) v = true := by
  have hsmem : (s, v) ∈ PIIService.extendMapping m := by
    have h := (PIIService.mem_extendMapping_of_mem m _ v hmem).2
      (PIIService.isBraced_mkBraced s)
    rwa [PIIService.stripBraces_mkBraced] at h
  have hperm := PIIService.sortByLen_perm (PIIService.extendMapping m)
  have hmain : PIIService.unmask text m = replaceAll text s v := by
    apply PIIService.foldl_unmaskStep_single
    · exact hperm.mem_iff.mpr hsmem
    · exact ((hperm.map Prod.fst).nodup_iff).mpr hnodup
    · exact fun kv hkv hne => hothers kv (hperm.mem_iff.mp hkv) hne
    · exact hocc
    · exact fun kv hkv => hafter kv (hperm.mem_iff.mp hkv)
  exact ⟨hmain, by rw [hmain]; exact PIIService.containsSeq_replaceAll_rep text s v hs hocc⟩

/-- Witness for C6 at the repository's own brace-stripping test text. -/
theorem C6_brace_tolerance_witness :
    PIIService.unmask (("Please contact EMAIL_1 regarding this.").data)
        [(PIIService.mkBraced (("EMAIL_1").data), ("test@example.com").data)] =
      ("Please contact test@example.com regarding this.").data ∧
    containsSeq
      (PIIService.unmask (("Please contact EMAIL_1 regarding this.").data)
        [(PIIService.mkBraced (("EMAIL_1").data), ("test@example.com").data)])
      (("test@example.com").data) = true := by
  have h := C6_brace_tolerance
    [(PIIService.mkBraced (("EMAIL_1").data), ("test@example.com").data)]
    (("EMAIL_1").data) (("test@example.com").data)
    (("Please contact EMAIL_1 regarding this.").data)
    (by decide) (by decide) (by decide) (by decide) (by decide) (by decide)
  exact ⟨h.1.trans (by decide), h.2⟩

/-! ### Claim C1 (counterexample) -/

/-- C1 counterexample: for the text `"EMAIL_1 a@b.com"` (a single PII
instance, so values are trivially pairwise distinct) the EMAIL rule is the
only match; masking yields `"EMAIL_1 \x7b\x7bEMAIL_1\x7d\x7d"` with mapping
`\x7b\x7bEMAIL_1\x7d\x7d -> a@b.com`, and unmasking then also rewrites the
pre-existing bare `EMAIL_1` of the original text, returning
`"a@b.com a@b.com"` instead of the original text. -/
theorem C1_counterexample :
    PIIService.flattenPieces Fixtures.roundTripPieces = ("EMAIL_1 a@b.com").data ∧
    (PIIService.maskPieces [] Fixtures.roundTripPieces).2 =
      [(PIIService.mkToken (("EMAIL").data) 1, ("a@b.com").data)] ∧
    PIIService.unmask (PIIService.maskPieces [] Fixtures.roundTripPieces).1
        (PIIService.maskPieces [] Fixtures.roundTripPieces).2 =
      ("a@b.com a@b.com").data ∧
    ("a@b.com a@b.com").data ≠ ("EMAIL_1 a@b.com").data := by
  refine ⟨by decide, by decide, by decide, by decide⟩

/-! ### Token structure lemmas (towards the amended round trip) -/

theorem braceFree_append (a b : Str) :
    braceFree (a ++ b) = (braceFree a && braceFree b) := by
  simp [braceFree]

theorem braceFree_of_mem {s : Str} {c : Char} (h : braceFree s = true) (hc : c ∈ s) :
    c ≠ lbr ∧ c ≠ rbr := by
  have hall := List.all_eq_true.mp h c hc
  constructor <;> intro he <;> subst he <;> simp at hall

theorem digitChar_ne (n : Nat) :
    digitChar n ≠ lbr ∧ digitChar n ≠ rbr ∧ digitChar n ≠ usc := by
  have h9 : ('9' : Char) ≠ lbr ∧ ('9' : Char) ≠ rbr ∧ ('9' : Char) ≠ usc := by decide
  rcases n with _|_|_|_|_|_|_|_|_|m <;> first | decide | exact h9

theorem braceFree_natStr (n : Nat) : braceFree (natStr n) = true := by
  induction n using Nat.strong_induction_on with
  | _ n ih =>
    rw [natStr_eq]
    by_cases h : n < 10
    · rw [if_pos h]
      simp [braceFree, (digitChar_ne n).1, (digitChar_ne n).2.1]
    · have hd : n / 10 < n := Nat.div_lt_self (by omega) (by omega)
      rw [if_neg h, braceFree_append, ih (n / 10) hd]
      simp [braceFree, (digitChar_ne (n % 10)).1, (digitChar_ne (n % 10)).2.1]

theorem natStr_ne_usc (n : Nat) : ∀ c ∈ natStr n, c ≠ usc := by
  induction n using Nat.strong_induction_on with
  | _ n ih =>
    rw [natStr_eq]
    by_cases h : n < 10
    · rw [if_pos h]
      intro c hc
      rw [List.mem_singleton.mp hc]
      exact (digitChar_ne n).2.2
    · have hd : n / 10 < n := Nat.div_lt_self (by omega) (by omega)
      rw [if_neg h]
      intro c hc
      rcases List.mem_append.mp hc with hc1 | hc2
      · exact ih (n / 10) hd c hc1
      · rw [List.mem_singleton.mp hc2]
        exact (digitChar_ne (n % 10)).2.2

theorem strVal_append_singleton (a : Str) (c : Char) :
    strVal (a ++ [c]) = 10 * strVal a + (c.toNat - 48) := by
  simp [strVal, List.foldl_append]

theorem digitChar_val (n : Nat) (h : n < 10) : (digitChar n).toNat - 48 = n := by
  interval_cases n <;> decide

theorem strVal_natStr (n : Nat) : strVal (natStr n) = n := by
  induction n using Nat.strong_induction_on with
  | _ n ih =>
    rw [natStr_eq]
    by_cases h : n < 10
    · rw [if_pos h]
      have : strVal [digitChar n] = (digitChar n).toNat - 48 := by
        simp [strVal]
      rw [this, digitChar_val n h]
    · have hd : n / 10 < n := Nat.div_lt_self (by omega) (by omega)
      rw [if_neg h, strVal_append_singleton, ih (n / 10) hd,
        digitChar_val (n % 10) (by omega)]
      omega

theorem natStr_inj {n1 n2 : Nat} (h : natStr n1 = natStr n2) : n1 = n2 := by
  have := congrArg strVal h
  rwa [strVal_natStr, strVal_natStr] at this

namespace PIIService

theorem mkToken_eq_mkBraced (ty : Str) (n : Nat) :
    mkToken ty n = mkBraced (ty ++ usc :: natStr n) := by
  simp [mkToken, mkBraced, List.append_assoc]

theorem mkBraced_inj {a b : Str} (h : mkBraced a = mkBraced b) : a = b := by
  simp only [mkBraced, List.cons_append, List.cons.injEq, true_and] at h
  exact List.append_cancel_right h

theorem usc_split (a1 b1 : Str) : ∀ (a2 b2 : Str), (∀ c ∈ a1, c ≠ usc) →
    (∀ c ∈ a2, c ≠ usc) → a1 ++ usc :: b1 = a2 ++ usc :: b2 → a1 = a2 ∧ b1 = b2 := by
  induction a1 with
  | nil =>
    intro a2 b2 _ h2 he
    cases a2 with
    | nil => simpa using he
    | cons c a2' =>
      simp only [List.nil_append, List.cons_append, List.cons.injEq] at he
      exact absurd he.1.symm (h2 c (by simp))
  | cons c a1' ih =>
    intro a2 b2 h1 h2 he
    cases a2 with
    | nil =>
      simp only [List.cons_append, List.nil_append, List.cons.injEq] at he
      exact absurd he.1 (h1 c (by simp))
    | cons d a2' =>
      simp only [List.cons_append, List.cons.injEq] at he
      obtain ⟨hcd, he'⟩ := he
      obtain ⟨hh, hb⟩ := ih a2' b2 (fun x hx => h1 x (by simp [hx]))
        (fun x hx => h2 x (by simp [hx])) he'
      exact ⟨by rw [hcd, hh], hb⟩

theorem mkToken_inj {ty1 ty2 : Str} {n1 n2 : Nat}
    (h : mkToken ty1 n1 = mkToken ty2 n2) : ty1 = ty2 ∧ n1 = n2 := by
  rw [mkToken_eq_mkBraced, mkToken_eq_mkBraced] at h
  have he := mkBraced_inj h
  have hrev := congrArg List.reverse he
  simp only [List.reverse_append, List.reverse_cons] at hrev
  have hrev' : (natStr n1).reverse ++ usc :: ty1.reverse =
      (natStr n2).reverse ++ usc :: ty2.reverse := by
    simpa [List.append_assoc] using hrev
  obtain ⟨hna, hty⟩ := usc_split ((natStr n1).reverse) (ty1.reverse)
    ((natStr n2).reverse) (ty2.reverse)
    (fun c hc => natStr_ne_usc n1 c (List.mem_reverse.mp hc))
    (fun c hc => natStr_ne_usc n2 c (List.mem_reverse.mp hc)) hrev'
  constructor
  · have := congrArg List.reverse hty
    simpa using this
  · apply natStr_inj
    have := congrArg List.reverse hna
    simpa using this

/-- The interior of a token: nonempty and brace-free when the type name is
brace-free. -/
theorem tokenInterior_good (ty : Str) (n : Nat) (hty : braceFree ty = true) :
    (ty ++ usc :: natStr n) ≠ [] ∧ braceFree (ty ++ usc :: natStr n) = true := by
  constructor
  · simp
  · rw [braceFree_append, hty]
    have h1 : braceFree (usc :: natStr n) = true := by
      have := braceFree_natStr n
      simp [braceFree] at this ⊢
      refine ⟨⟨?_, ?_⟩, ?_⟩ <;> first
        | decide
        | exact fun c hc => this c hc
    simp [h1]

/-! ### Walk lemmas for `replaceAll` over chunked text -/

theorem mkBraced_ne_nil (s : Str) : mkBraced s ≠ [] := by
  simp [mkBraced]

theorem replaceAll_skip_lbrFree (a : Str) (hA : ∀ c ∈ a, c ≠ lbr)
    (rest k' rep : Str) :
    replaceAll (a ++ rest) (lbr :: k') rep = a ++ replaceAll rest (lbr :: k') rep := by
  induction a with
  | nil => simp
  | cons c cs ih =>
    have hc : c ≠ lbr := hA c (by simp)
    rw [List.cons_append, replaceAll_cons, if_neg (by simp : ¬(lbr :: k' = []))]
    have hpre : (lbr :: k').isPrefixOf (c :: (cs ++ rest)) = false := by
      cases hb : (lbr :: k').isPrefixOf (c :: (cs ++ rest)) with
      | false => rfl
      | true =>
        rw [List.isPrefixOf_iff_prefix] at hb
        obtain ⟨hl, _⟩ := List.cons_prefix_cons.mp hb
        exact absurd hl.symm hc
    rw [if_neg (by intro hcon; rw [hpre] at hcon; exact Bool.false_ne_true hcon),
      ih (fun x hx => hA x (by simp [hx]))]
    rfl

theorem replaceAll_consume (pat rest rep : Str) (hp : pat ≠ []) :
    replaceAll (pat ++ rest) pat rep = rep ++ replaceAll rest pat rep := by
  cases pat with
  | nil => exact absurd rfl hp
  | cons c cp =>
    rw [List.cons_append, replaceAll_cons, if_neg hp]
    have hpre : (c :: cp).isPrefixOf (c :: (cp ++ rest)) = true := by
      rw [List.isPrefixOf_iff_prefix]
      exact List.cons_prefix_cons.mpr ⟨rfl, List.prefix_append cp rest⟩
    rw [if_pos hpre]
    congr 1
    have hdl := List.drop_left (c :: cp) rest
    rw [List.cons_append] at hdl
    rw [hdl]

theorem braced_prefix_braced {i' : Str} : ∀ {i r : Str}, braceFree i = true →
    braceFree i' = true → (i' ++ [rbr, rbr]) <+: (i ++ ([rbr, rbr] ++ r)) → i' = i := by
  induction i' with
  | nil =>
    intro i r hi hi' h
    cases i with
    | nil => rfl
    | cons c i2 =>
      exfalso
      simp only [List.nil_append, List.cons_append] at h
      obtain ⟨hl, _⟩ := List.cons_prefix_cons.mp h
      exact (braceFree_of_mem hi (by simp)).2 hl.symm
  | cons c' i2' ih =>
    intro i r hi hi' h
    cases i with
    | nil =>
      exfalso
      simp only [List.cons_append, List.nil_append] at h
      obtain ⟨hl, _⟩ := List.cons_prefix_cons.mp h
      exact (braceFree_of_mem hi' (by simp)).2 hl
    | cons c i2 =>
      simp only [List.cons_append] at h
      obtain ⟨hl, hrest⟩ := List.cons_prefix_cons.mp h
      have hi2 : braceFree i2 = true := by
        simp [braceFree] at hi ⊢
        exact fun x hx => hi.2 x hx
      have hi2' : braceFree i2' = true := by
        simp [braceFree] at hi' ⊢
        exact fun x hx => hi'.2 x hx
      rw [hl, ih hi2 hi2' hrest]

theorem replaceAll_skip_token {i i' : Str} (hi : braceFree i = true) (hine : i ≠ [])
    (hi' : braceFree i' = true) (hne : i ≠ i') (rest rep : Str) :
    replaceAll (mkBraced i ++ rest) (mkBraced i') rep =
      mkBraced i ++ replaceAll rest (mkBraced i') rep := by
  obtain ⟨c, i2, hci⟩ : ∃ c i2, i = c :: i2 := by
    cases i with
    | nil => exact absurd rfl hine
    | cons c i2 => exact ⟨c, i2, rfl⟩
  have hstep0 : mkBraced i ++ rest = lbr :: (lbr :: (i ++ ([rbr, rbr] ++ rest))) := by
    simp [mkBraced, List.append_assoc]
  have hpat : mkBraced i' = lbr :: (lbr :: (i' ++ [rbr, rbr])) := by
    simp [mkBraced]
  have hpne : mkBraced i' ≠ [] := mkBraced_ne_nil i'
  rw [hstep0, replaceAll_cons, if_neg hpne]
  have hpre1 : (mkBraced i').isPrefixOf
      (lbr :: (lbr :: (i ++ ([rbr, rbr] ++ rest)))) = false := by
    cases hb : (mkBraced i').isPrefixOf (lbr :: (lbr :: (i ++ ([rbr, rbr] ++ rest)))) with
    | false => rfl
    | true =>
      rw [List.isPrefixOf_iff_prefix, hpat] at hb
      have h1 := (List.cons_prefix_cons.mp hb).2
      have h2 := (List.cons_prefix_cons.mp h1).2
      exact absurd (braced_prefix_braced hi hi' h2).symm hne
  rw [if_neg (by intro hcon; rw [hpre1] at hcon; exact Bool.false_ne_true hcon),
    replaceAll_cons, if_neg hpne]
  have hpre2 : (mkBraced i').isPrefixOf (lbr :: (i ++ ([rbr, rbr] ++ rest))) = false := by
    cases hb : (mkBraced i').isPrefixOf (lbr :: (i ++ ([rbr, rbr] ++ rest))) with
    | false => rfl
    | true =>
      rw [List.isPrefixOf_iff_prefix, hpat] at hb
      have h1 := (List.cons_prefix_cons.mp hb).2
      rw [hci] at h1
      simp only [List.cons_append] at h1
      obtain ⟨hl, _⟩ := List.cons_prefix_cons.mp h1
      have hcb := braceFree_of_mem hi (show c ∈ i by rw [hci]; simp)
      exact absurd (hcb.1 hl.symm) (fun hfalse => hfalse)
  rw [if_neg (by intro hcon; rw [hpre2] at hcon; exact Bool.false_ne_true hcon)]
  have hwalk := replaceAll_skip_lbrFree i
    (fun x hx => (braceFree_of_mem hi hx).1) ([rbr, rbr] ++ rest)
    (lbr :: (i' ++ [rbr, rbr])) rep
  rw [hpat]
  rw [hwalk]
  have hwalk2 := replaceAll_skip_lbrFree [rbr, rbr] (by decide) rest
    (lbr :: (i' ++ [rbr, rbr])) rep
  rw [hwalk2]
  rw [← hpat]
  simp [mkBraced, List.append_assoc]

theorem replaceAll_render (chs : List Chunk) (i' : Str) (hbf' : braceFree i' = true)
    (w : Str) (hg : ∀ c ∈ chs, ChunkGood c) :
    replaceAll (renderChunks chs) (mkBraced i') w =
      renderChunks (replaceSiteChunks chs (mkBraced i') w) := by
  induction chs with
  | nil =>
    rw [show renderChunks [] = [] from rfl, replaceAll_nil,
      if_neg (mkBraced_ne_nil i')]
    rfl
  | cons c cs ih =>
    have hgc := hg c (by simp)
    have hgcs : ∀ x ∈ cs, ChunkGood x := fun x hx => hg x (by simp [hx])
    cases c with
    | run s =>
      have hr : renderChunks (Chunk.run s :: cs) = s ++ renderChunks cs := rfl
      rw [hr]
      have hskip := replaceAll_skip_lbrFree s
        (fun x hx => (braceFree_of_mem hgc hx).1) (renderChunks cs)
        (lbr :: (i' ++ [rbr, rbr])) w
      have hpat : mkBraced i' = lbr :: (lbr :: (i' ++ [rbr, rbr])) := by
        simp [mkBraced]
      rw [hpat] at ih ⊢
      rw [hskip, ih hgcs]
      rfl
    | site t v =>
      obtain ⟨⟨i, hine, hibf, hti⟩, hvbf⟩ := hgc
      subst hti
      have hr : renderChunks (Chunk.site (mkBraced i) v :: cs) =
          mkBraced i ++ renderChunks cs := rfl
      rw [hr]
      by_cases hik : i = i'
      · subst hik
        rw [replaceAll_consume _ _ _ (mkBraced_ne_nil i), ih hgcs]
        have hrs : replaceSiteChunks (Chunk.site (mkBraced i) v :: cs) (mkBraced i) w =
            Chunk.run w :: replaceSiteChunks cs (mkBraced i) w := by
          simp [replaceSiteChunks]
        rw [hrs]
        rfl
      · rw [replaceAll_skip_token hibf hine hbf' hik, ih hgcs]
        have htk : ¬(mkBraced i = mkBraced i') := fun hcon => hik (mkBraced_inj hcon)
        have hrs : replaceSiteChunks (Chunk.site (mkBraced i) v :: cs) (mkBraced i') w =
            Chunk.site (mkBraced i) v :: replaceSiteChunks cs (mkBraced i') w := by
          simp [replaceSiteChunks, htk]
        rw [hrs]
        rfl

theorem replaceSiteChunks_id (chs : List Chunk) (k w : Str)
    (h : ∀ v', Chunk.site k v' ∉ chs) :
    replaceSiteChunks chs k w = chs := by
  induction chs with
  | nil => rfl
  | cons c cs ih =>
    have hcs : ∀ v', Chunk.site k v' ∉ cs := fun v' hv' => h v' (by simp [hv'])
    cases c with
    | run s =>
      rw [show replaceSiteChunks (Chunk.run s :: cs) k w =
        Chunk.run s :: replaceSiteChunks cs k w from rfl, ih hcs]
    | site t v =>
      have htk : ¬(t = k) := by
        intro hcon
        exact h v (by rw [← hcon]; simp)
      have hstep : replaceSiteChunks (Chunk.site t v :: cs) k w =
          Chunk.site t v :: replaceSiteChunks cs k w := by
        simp [replaceSiteChunks, htk]
      rw [hstep, ih hcs]

theorem site_infix_render : ∀ (chs : List Chunk) (t v : Str), Chunk.site t v ∈ chs →
    t <:+: renderChunks chs := by
  intro chs
  induction chs with
  | nil => exact fun t v h => absurd h (List.not_mem_nil _)
  | cons c cs ih =>
    intro t v h
    rcases List.mem_cons.mp h with heq | hmem
    · subst heq
      exact ⟨[], renderChunks cs, by simp [renderChunks]⟩
    · obtain ⟨a, b, hab⟩ := ih t v hmem
      cases c with
      | run s =>
        refine ⟨s ++ a, b, ?_⟩
        show s ++ a ++ t ++ b = s ++ renderChunks cs
        rw [← hab]
        simp [List.append_assoc]
      | site t2 v2 =>
        refine ⟨t2 ++ a, b, ?_⟩
        show t2 ++ a ++ t ++ b = t2 ++ renderChunks cs
        rw [← hab]
        simp [List.append_assoc]

theorem restore_replaceSiteChunks (chs : List Chunk) (k w : Str)
    (h : ∀ v', Chunk.site k v' ∈ chs → v' = w) :
    restoreChunks (replaceSiteChunks chs k w) = restoreChunks chs := by
  induction chs with
  | nil => rfl
  | cons c cs ih =>
    have hcs : ∀ v', Chunk.site k v' ∈ cs → v' = w :=
      fun v' hv' => h v' (by simp [hv'])
    cases c with
    | run s =>
      simp only [replaceSiteChunks, List.map_cons]
      show s ++ restoreChunks (replaceSiteChunks cs k w) = s ++ restoreChunks cs
      rw [ih hcs]
    | site t v =>
      by_cases htk : t = k
      · have hvw : v = w := h v (by rw [htk]; simp)
        simp only [replaceSiteChunks, List.map_cons, if_pos htk]
        show w ++ restoreChunks (replaceSiteChunks cs k w) = v ++ restoreChunks cs
        rw [ih hcs, hvw]
      · simp only [replaceSiteChunks, List.map_cons, if_neg htk]
        show v ++ restoreChunks (replaceSiteChunks cs k w) = v ++ restoreChunks cs
        rw [ih hcs]

theorem render_eq_restore_of_no_sites (chs : List Chunk)
    (h : ∀ t v, Chunk.site t v ∉ chs) :
    renderChunks chs = restoreChunks chs := by
  induction chs with
  | nil => rfl
  | cons c cs ih =>
    have hcs : ∀ t v, Chunk.site t v ∉ cs := fun t v hv => h t v (by simp [hv])
    cases c with
    | run s =>
      show s ++ renderChunks cs = s ++ restoreChunks cs
      rw [ih hcs]
    | site t v => exact absurd (by simp : Chunk.site t v ∈ Chunk.site t v :: cs) (h t v)

/-! ### Occurrence analysis: occurrences in the rendered text map to the
original text -/

theorem prefix_split : ∀ (u p v : Str), p <+: u ++ v →
    p <+: u ∨ ∃ y, p = u ++ y ∧ y <+: v := by
  intro u
  induction u with
  | nil =>
    intro p v h
    right
    exact ⟨p, by simp, by simpa using h⟩
  | cons c u' ih =>
    intro p v h
    cases p with
    | nil => exact Or.inl List.nil_prefix
    | cons d p' =>
      rw [List.cons_append] at h
      obtain ⟨hdc, hp'⟩ := List.cons_prefix_cons.mp h
      rcases ih p' v hp' with h1 | ⟨y, hy, hyv⟩
      · exact Or.inl (List.cons_prefix_cons.mpr ⟨hdc, h1⟩)
      · right
        exact ⟨y, by rw [List.cons_append, hdc, hy], hyv⟩

theorem containsSeq_append_cases : ∀ (a b p : Str), containsSeq (a ++ b) p = true →
    p <:+: a ∨ p <:+: b ∨
      ∃ x y, p = x ++ y ∧ x ≠ [] ∧ y ≠ [] ∧ x <:+ a ∧ y <+: b := by
  intro a
  induction a with
  | nil =>
    intro b p h
    exact Or.inr (Or.inl ((containsSeq_infix_iff b p).mp (by simpa using h)))
  | cons c a2 ih =>
    intro b p h
    rw [show (c :: a2) ++ b = c :: (a2 ++ b) from rfl, containsSeq] at h
    rcases Bool.or_eq_true_iff.mp h with h1 | h2
    · rw [List.isPrefixOf_iff_prefix] at h1
      have h1' : p <+: (c :: a2) ++ b := by simpa using h1
      rcases prefix_split (c :: a2) p b h1' with hp | ⟨y, hy, hyv⟩
      · exact Or.inl hp.isInfix
      · cases y with
        | nil =>
          left
          rw [hy]
          simp
        | cons e y2 =>
          right; right
          exact ⟨c :: a2, e :: y2, hy, by simp, by simp, List.suffix_rfl, hyv⟩
    · rcases ih b p h2 with h1 | h2' | ⟨x, y, hxy, hx0, hy0, hxs, hyp⟩
      · exact Or.inl (List.infix_cons h1)
      · exact Or.inr (Or.inl h2')
      · right; right
        exact ⟨x, y, hxy, hx0, hy0, hxs.trans (List.suffix_cons c a2), hyp⟩

theorem bf_prefix_render : ∀ (chs : List Chunk), (∀ c ∈ chs, ChunkGood c) →
    ∀ y : Str, braceFree y = true → y <+: renderChunks chs →
      y <+: restoreChunks chs := by
  intro chs
  induction chs with
  | nil => exact fun _ y _ h => h
  | cons c cs ih =>
    intro hg y hybf h
    have hgcs : ∀ x ∈ cs, ChunkGood x := fun x hx => hg x (by simp [hx])
    cases c with
    | run s =>
      have h' : y <+: s ++ renderChunks cs := h
      rcases prefix_split s y (renderChunks cs) h' with h1 | ⟨y2, hy2, hyv⟩
      · exact h1.trans (List.prefix_append s (restoreChunks cs))
      · have hybf' : braceFree y2 = true := by
          rw [hy2, braceFree_append] at hybf
          exact ((Bool.and_eq_true _ _).mp hybf).2
        obtain ⟨t2, ht2⟩ := ih hgcs y2 hybf' hyv
        show y <+: s ++ restoreChunks cs
        rw [hy2]
        exact ⟨t2, by rw [← ht2]; simp [List.append_assoc]⟩
    | site t v =>
      obtain ⟨⟨i, hine, hibf, hti⟩, _⟩ := hg (Chunk.site t v) (by simp)
      cases y with
      | nil => exact List.nil_prefix
      | cons d y2 =>
        exfalso
        have h' : (d :: y2) <+: t ++ renderChunks cs := h
        rw [hti] at h'
        rw [show mkBraced i ++ renderChunks cs =
          lbr :: ((lbr :: i ++ [rbr, rbr]) ++ renderChunks cs) from by
            simp [mkBraced]] at h'
        have hd := (List.cons_prefix_cons.mp h').1
        exact (braceFree_of_mem hybf (by simp)).1 hd

theorem suffix_concat_last {x q : Str} {ch : Char} (hx : x ≠ []) (h : x <:+ q ++ [ch]) :
    ch ∈ x := by
  obtain ⟨p, hp⟩ := h
  rcases List.eq_nil_or_concat x with hnil | ⟨x0, a, hx0⟩
  · exact absurd hnil hx
  · rw [List.concat_eq_append] at hx0
    have hlast : a = ch := by
      have h1 : (p ++ (x0 ++ [a])).getLast? = some ch := by
        rw [hx0] at hp
        rw [hp, List.getLast?_concat]
      rw [show p ++ (x0 ++ [a]) = (p ++ x0) ++ [a] from by simp [List.append_assoc],
        List.getLast?_concat] at h1
      exact Option.some.inj h1
    rw [hx0, hlast]
    simp

theorem render_occ_restore : ∀ (chs : List Chunk), (∀ c ∈ chs, ChunkGood c) →
    ∀ k : Str, k ≠ [] → braceFree k = true →
    (∀ t v, Chunk.site t v ∈ chs → t.length ≤ k.length) →
    containsSeq (renderChunks chs) k = true → k <:+: restoreChunks chs := by
  intro chs
  induction chs with
  | nil =>
    intro _ k hk _ _ h
    rw [show renderChunks [] = [] from rfl, containsSeq] at h
    simp only [Bool.or_false] at h
    rw [List.isPrefixOf_iff_prefix] at h
    exact absurd (List.prefix_nil.mp h) hk
  | cons c cs ih =>
    intro hg k hk hkbf hlen h
    have hgcs : ∀ x ∈ cs, ChunkGood x := fun x hx => hg x (by simp [hx])
    have hlencs : ∀ t v, Chunk.site t v ∈ cs → t.length ≤ k.length :=
      fun t v hmem => hlen t v (by simp [hmem])
    cases c with
    | run s =>
      have h' : containsSeq (s ++ renderChunks cs) k = true := h
      rcases containsSeq_append_cases s (renderChunks cs) k h' with
        h1 | h2 | ⟨x, y, hxy, hx0, hy0, hxs, hyp⟩
      · obtain ⟨a, b, hab⟩ := h1
        exact ⟨a, b ++ restoreChunks cs,
          show a ++ k ++ (b ++ restoreChunks cs) = s ++ restoreChunks cs from by
            rw [← hab]; simp [List.append_assoc]⟩
      · obtain ⟨a, b, hab⟩ := ih hgcs k hk hkbf hlencs
          ((containsSeq_infix_iff _ _).mpr h2)
        exact ⟨s ++ a, b,
          show (s ++ a) ++ k ++ b = s ++ restoreChunks cs from by
            rw [← hab]; simp [List.append_assoc]⟩
      · have hybf : braceFree y = true := by
          rw [hxy, braceFree_append] at hkbf
          exact ((Bool.and_eq_true _ _).mp hkbf).2
        obtain ⟨p, hp⟩ := hxs
        obtain ⟨t2, ht2⟩ := bf_prefix_render cs hgcs y hybf hyp
        refine ⟨p, t2, ?_⟩
        show p ++ k ++ t2 = s ++ restoreChunks cs
        rw [hxy, ← hp, ← ht2]
        simp [List.append_assoc]
    | site t v =>
      obtain ⟨⟨i, hine, hibf, hti⟩, hvbf⟩ := hg (Chunk.site t v) (by simp)
      have h' : containsSeq (t ++ renderChunks cs) k = true := h
      rcases containsSeq_append_cases t (renderChunks cs) k h' with
        h1 | h2 | ⟨x, y, hxy, hx0, hy0, hxs, hyp⟩
      · exfalso
        have hl1 : k.length ≤ t.length := h1.length_le
        have hl2 : t.length ≤ k.length := hlen t v (by simp)
        have hkt : k = t := h1.eq_of_length (by omega)
        cases k with
        | nil => exact hk rfl
        | cons d k2 =>
          rw [hti] at hkt
          have hd : d = lbr := by
            rw [show mkBraced i = lbr :: (lbr :: i ++ [rbr, rbr]) from by
              simp [mkBraced]] at hkt
            exact (List.cons.inj hkt).1
          exact (braceFree_of_mem hkbf (by simp)).1 hd
      · obtain ⟨a, b, hab⟩ := ih hgcs k hk hkbf hlencs
          ((containsSeq_infix_iff _ _).mpr h2)
        exact ⟨v ++ a, b,
          show (v ++ a) ++ k ++ b = v ++ restoreChunks cs from by
            rw [← hab]; simp [List.append_assoc]⟩
      · exfalso
        have hrbr : rbr ∈ x := by
          apply suffix_concat_last hx0
          rw [hti] at hxs
          rw [show mkBraced i = (lbr :: lbr :: i ++ [rbr]) ++ [rbr] from by
            simp [mkBraced]] at hxs
          exact hxs
        have hrk : rbr ∈ k := by
          rw [hxy]
          exact List.mem_append_left y hrbr
        exact (braceFree_of_mem hkbf hrk).2 rfl

/-! ### Sortedness and key structure of the extended mapping -/

theorem insertByLen_pairwise (x : Str × Str) (l : List (Str × Str))
    (h : l.Pairwise (fun a b => b.1.length ≤ a.1.length)) :
    (insertByLen x l).Pairwise (fun a b => b.1.length ≤ a.1.length) := by
  induction l with
  | nil => simp [insertByLen]
  | cons y ys ih =>
    obtain ⟨hy, hys⟩ := List.pairwise_cons.mp h
    by_cases hxy : x.1.length < y.1.length
    · simp only [insertByLen, if_pos hxy]
      apply List.pairwise_cons.mpr
      refine ⟨?_, ih hys⟩
      intro z hz
      rcases List.mem_cons.mp ((insertByLen_perm x ys).mem_iff.mp hz) with hzx | hzy
      · rw [hzx]; omega
      · exact hy z hzy
    · simp only [insertByLen, if_neg hxy]
      apply List.pairwise_cons.mpr
      refine ⟨?_, h⟩
      intro z hz
      rcases List.mem_cons.mp hz with hzy | hzys
      · rw [hzy]; omega
      · exact le_trans (hy z hzys) (by omega)

theorem sortByLen_pairwise (l : List (Str × Str)) :
    (sortByLen l).Pairwise (fun a b => b.1.length ≤ a.1.length) := by
  induction l with
  | nil => simp [sortByLen]
  | cons x xs ih => exact insertByLen_pairwise x (sortByLen xs) ih

theorem braced_ne_bracefree {i j : Str} (hbf : braceFree j = true) :
    mkBraced i ≠ j := by
  intro h
  have hlbr : lbr ∈ j := by rw [← h]; simp [mkBraced]
  exact (braceFree_of_mem hbf hlbr).1 rfl

theorem mem_extendMapping_keys : ∀ (m : Mapping) (k : Str),
    k ∈ (PIIService.extendMapping m).map Prod.fst →
    (∃ v, (k, v) ∈ m) ∨
      ∃ t v, (t, v) ∈ m ∧ isBraced t = true ∧ k = stripBraces t := by
  intro m
  induction m with
  | nil => intro k h; simp [extendMapping] at h
  | cons p rest ih =>
    intro k h
    by_cases hb : isBraced p.1 = true
    · rw [show extendMapping (p :: rest) =
        p :: (stripBraces p.1, p.2) :: extendMapping rest from by
          simp [extendMapping, hb]] at h
      simp only [List.map_cons, List.mem_cons] at h
      rcases h with h1 | h2 | h3
      · exact Or.inl ⟨p.2, by rw [h1]; simp⟩
      · exact Or.inr ⟨p.1, p.2, by simp, hb, h2⟩
      · rcases ih k h3 with ⟨v, hv⟩ | ⟨t, v, htv, htb, hkt⟩
        · exact Or.inl ⟨v, by simp [hv]⟩
        · exact Or.inr ⟨t, v, by simp [htv], htb, hkt⟩
    · rw [show extendMapping (p :: rest) = p :: extendMapping rest from by
        simp [extendMapping, hb]] at h
      simp only [List.map_cons, List.mem_cons] at h
      rcases h with h1 | h3
      · exact Or.inl ⟨p.2, by rw [h1]; simp⟩
      · rcases ih k h3 with ⟨v, hv⟩ | ⟨t, v, htv, htb, hkt⟩
        · exact Or.inl ⟨v, by simp [hv]⟩
        · exact Or.inr ⟨t, v, by simp [htv], htb, hkt⟩

theorem extendMapping_keys_nodup (m : Mapping)
    (htok : ∀ kv ∈ m, ∃ i, i ≠ [] ∧ braceFree i = true ∧ kv.1 = mkBraced i)
    (hnd : (m.map Prod.fst).Nodup) :
    ((PIIService.extendMapping m).map Prod.fst).Nodup := by
  induction m with
  | nil => simp [extendMapping]
  | cons p rest ih =>
    obtain ⟨i, hine, hibf, hpi⟩ := htok p (by simp)
    have hb : isBraced p.1 = true := by rw [hpi]; exact isBraced_mkBraced i
    have hstrip : stripBraces p.1 = i := by rw [hpi]; exact stripBraces_mkBraced i
    rw [List.map_cons] at hnd
    have hnd' := List.nodup_cons.mp hnd
    have htokrest : ∀ kv ∈ rest, ∃ j, j ≠ [] ∧ braceFree j = true ∧ kv.1 = mkBraced j :=
      fun kv hkv => htok kv (by simp [hkv])
    rw [show extendMapping (p :: rest) =
      p :: (stripBraces p.1, p.2) :: extendMapping rest from by
        simp [extendMapping, hb]]
    simp only [List.map_cons]
    apply List.nodup_cons.mpr
    constructor
    · intro hmem
      rcases List.mem_cons.mp hmem with h1 | h2
      · rw [hstrip, hpi] at h1
        exact braced_ne_bracefree hibf h1
      · rcases mem_extendMapping_keys rest p.1 h2 with ⟨v, hv⟩ | ⟨t, v, htv, _, hkt⟩
        · exact hnd'.1 (List.mem_map.mpr ⟨(p.1, v), hv, rfl⟩)
        · obtain ⟨j, hjne, hjbf, htj⟩ := htokrest (t, v) htv
          have htj' : t = mkBraced j := htj
          have hstj : stripBraces t = j := by rw [htj']; exact stripBraces_mkBraced j
          rw [hstj, hpi] at hkt
          exact braced_ne_bracefree hjbf hkt
    · apply List.nodup_cons.mpr
      constructor
      · intro hmem
        rcases mem_extendMapping_keys rest (stripBraces p.1) hmem with
          ⟨v, hv⟩ | ⟨t, v, htv, _, hkt⟩
        · obtain ⟨j, hjne, hjbf, htj⟩ := htokrest (stripBraces p.1, v) hv
          have htj' : stripBraces p.1 = mkBraced j := htj
          rw [hstrip] at htj'
          exact braced_ne_bracefree hibf htj'.symm
        · obtain ⟨j, hjne, hjbf, htj⟩ := htokrest (t, v) htv
          have htj' : t = mkBraced j := htj
          have hstj : stripBraces t = j := by rw [htj']; exact stripBraces_mkBraced j
          rw [hstrip, hstj] at hkt
          have hpt : p.1 = t := by rw [hpi, htj', hkt]
          exact hnd'.1 (hpt ▸ List.mem_map.mpr ⟨(t, v), htv, rfl⟩)
      · exact ih htokrest hnd'.2

/-! ### Membership in replaced chunk lists -/

theorem chunkGood_replaceSite (chs : List Chunk) (k w : Str)
    (hg : ∀ c ∈ chs, ChunkGood c) (hw : braceFree w = true) :
    ∀ c ∈ replaceSiteChunks chs k w, ChunkGood c := by
  intro c hc
  obtain ⟨c0, hc0, hfc⟩ := List.mem_map.mp hc
  cases c0 with
  | run s =>
    rw [← hfc]
    exact hg _ hc0
  | site t v =>
    by_cases htk : t = k
    · have : (match Chunk.site t v with
        | Chunk.site t v => if t = k then Chunk.run w else Chunk.site t v
        | c => c) = Chunk.run w := by simp [htk]
      rw [this] at hfc
      rw [← hfc]
      exact hw
    · have : (match Chunk.site t v with
        | Chunk.site t v => if t = k then Chunk.run w else Chunk.site t v
        | c => c) = Chunk.site t v := by simp [htk]
      rw [this] at hfc
      rw [← hfc]
      exact hg _ hc0

theorem site_mem_replaceSite {chs : List Chunk} {k w t v : Str}
    (h : Chunk.site t v ∈ replaceSiteChunks chs k w) :
    Chunk.site t v ∈ chs ∧ t ≠ k := by
  obtain ⟨c0, hc0, hfc⟩ := List.mem_map.mp h
  cases c0 with
  | run s => simp at hfc
  | site t0 v0 =>
    by_cases htk : t0 = k
    · simp [htk] at hfc
    · simp only [htk, if_false] at hfc
      have hfc' : Chunk.site t0 v0 = Chunk.site t v := by simpa [htk] using hfc
      obtain ⟨ht0, hv0⟩ := Chunk.site.inj hfc'
      rw [← ht0, ← hv0]
      exact ⟨hc0, htk⟩

/-! ### The master lemma: folding the sorted extended mapping over the
rendered text restores the original text -/

theorem unmask_fold_spec (T : Str) : ∀ (K : List (Str × Str)) (chs : List Chunk),
    (∀ c ∈ chs, ChunkGood c) →
    (∀ kv ∈ K, GoodKey T kv) →
    (∀ kv ∈ K, braceFree kv.2 = true) →
    K.Pairwise (fun a b => b.1.length ≤ a.1.length) →
    (∀ t v, Chunk.site t v ∈ chs → (t, v) ∈ K) →
    (∃ a b, a ++ restoreChunks chs ++ b = T) →
    (K.map Prod.fst).Nodup →
    K.foldl unmaskStep (renderChunks chs) = restoreChunks chs := by
  intro K
  induction K with
  | nil =>
    intro chs hg _ _ _ hsite _ _
    exact render_eq_restore_of_no_sites chs
      (fun t v hmem => absurd (hsite t v hmem) (List.not_mem_nil _))
  | cons kw K2 ih =>
    intro chs hg hgk hvbf hpair hsite hinf hnd
    obtain ⟨k, w⟩ := kw
    rw [List.map_cons] at hnd
    have hnd' := List.nodup_cons.mp hnd
    have hgk2 : ∀ kv ∈ K2, GoodKey T kv := fun kv hkv => hgk kv (by simp [hkv])
    have hvbf2 : ∀ kv ∈ K2, braceFree kv.2 = true := fun kv hkv => hvbf kv (by simp [hkv])
    have hpair2 := (List.pairwise_cons.mp hpair).2
    have hpairhead := (List.pairwise_cons.mp hpair).1
    rcases hgk (k, w) (by simp) with ⟨i, hine, hibf, hki⟩ | ⟨hk0, hkbf, hknT⟩
    · -- braced key
      have hki' : k = mkBraced i := hki
      subst hki'
      have hval : ∀ v', Chunk.site (mkBraced i) v' ∈ chs → v' = w := by
        intro v' hmem
        rcases List.mem_cons.mp (hsite _ v' hmem) with heq | hmem2
        · exact (Prod.mk.injEq _ _ _ _ ▸ heq).2
        · exfalso
          exact hnd'.1 (List.mem_map.mpr ⟨_, hmem2, rfl⟩)
      have hstep : unmaskStep (renderChunks chs) (mkBraced i, w) =
          renderChunks (replaceSiteChunks chs (mkBraced i) w) := by
        show (if containsSeq (renderChunks chs) (mkBraced i) = true then
            replaceAll (renderChunks chs) (mkBraced i) w else renderChunks chs) =
          renderChunks (replaceSiteChunks chs (mkBraced i) w)
        by_cases hc : containsSeq (renderChunks chs) (mkBraced i) = true
        · rw [if_pos hc]
          exact replaceAll_render chs i hibf w hg
        · rw [if_neg hc]
          have hnosite : ∀ v', Chunk.site (mkBraced i) v' ∉ chs := by
            intro v' hmem
            exact hc ((containsSeq_infix_iff _ _).mpr (site_infix_render chs _ v' hmem))
          rw [replaceSiteChunks_id chs _ w hnosite]
      rw [List.foldl_cons, hstep,
        ← restore_replaceSiteChunks chs (mkBraced i) w hval]
      apply ih (replaceSiteChunks chs (mkBraced i) w)
      · exact chunkGood_replaceSite chs _ w hg (hvbf (mkBraced i, w) (by simp))
      · exact hgk2
      · exact hvbf2
      · exact hpair2
      · intro t v hmem
        obtain ⟨hmem0, htne⟩ := site_mem_replaceSite hmem
        rcases List.mem_cons.mp (hsite t v hmem0) with heq | h2
        · exact absurd (congrArg Prod.fst heq) htne
        · exact h2
      · obtain ⟨a, b, hab⟩ := hinf
        exact ⟨a, b, by rw [restore_replaceSiteChunks chs _ w hval]; exact hab⟩
      · exact hnd'.2
    · -- bare key
      have hnoc : containsSeq (renderChunks chs) k = false := by
        cases hc : containsSeq (renderChunks chs) k with
        | false => rfl
        | true =>
          exfalso
          have hlen : ∀ t v, Chunk.site t v ∈ chs → t.length ≤ k.length := by
            intro t v hmem
            rcases List.mem_cons.mp (hsite t v hmem) with heq | hmem2
            · exfalso
              obtain ⟨⟨i2, _, _, hti2⟩, _⟩ := hg (Chunk.site t v) hmem
              have htk : t = k := congrArg Prod.fst heq
              rw [hti2] at htk
              have hlbr : lbr ∈ k := by rw [← htk]; simp [mkBraced]
              exact (braceFree_of_mem hkbf hlbr).1 rfl
            · exact hpairhead (t, v) hmem2
          have hinfres := render_occ_restore chs hg k hk0 hkbf hlen hc
          obtain ⟨a, b, hab⟩ := hinf
          obtain ⟨a2, b2, hab2⟩ := hinfres
          have hT : containsSeq T k = true := by
            rw [containsSeq_infix_iff]
            exact ⟨a ++ a2, b2 ++ b, by
              rw [← hab, ← hab2]; simp [List.append_assoc]⟩
          rw [hknT] at hT
          exact Bool.false_ne_true hT
      have hstep : unmaskStep (renderChunks chs) (k, w) = renderChunks chs := by
        show (if containsSeq (renderChunks chs) k = true then
            replaceAll (renderChunks chs) k w else renderChunks chs) = renderChunks chs
        rw [if_neg (by rw [hnoc]; exact Bool.false_ne_true)]
      rw [List.foldl_cons, hstep]
      apply ih chs hg hgk2 hvbf2 hpair2
      · intro t v hmem
        rcases List.mem_cons.mp (hsite t v hmem) with heq | h2
        · exfalso
          obtain ⟨⟨i2, _, _, hti2⟩, _⟩ := hg (Chunk.site t v) hmem
          have htk : t = k := congrArg Prod.fst heq
          rw [hti2] at htk
          have hlbr : lbr ∈ k := by rw [← htk]; simp [mkBraced]
          exact (braceFree_of_mem hkbf hlbr).1 rfl
        · exact h2
      · exact hinf
      · exact hnd'.2

/-! ### The masking side: chunk view of `maskPieces` and mapping invariants -/

theorem prefCount_append (m1 m2 : Mapping) (ty : Str) :
    prefCount (m1 ++ m2) ty = prefCount m1 ty + prefCount m2 ty := by
  simp [prefCount, List.countP_append]

theorem findExisting_some_mem {m : Mapping} {ty orig tok : Str}
    (h : findExisting m ty orig = some tok) : (tok, orig) ∈ m := by
  unfold findExisting at h
  cases hf : m.find? (fun kv => kv.2 = orig && (bracePre ty).isPrefixOf kv.1) with
  | none => rw [hf] at h; simp at h
  | some kv =>
    rw [hf] at h
    have htok : kv.1 = tok := Option.some.inj h
    have hmem := List.mem_of_find?_eq_some hf
    have hp := List.find?_some hf
    have h2 : kv.2 = orig := of_decide_eq_true ((Bool.and_eq_true _ _).mp hp).1
    rw [← htok, ← h2]
    exact hmem

theorem allocate_spec {m : Mapping} (ty orig : Str)
    (hinv : MapInv m) (hty : braceFree ty = true) (hobf : braceFree orig = true) :
    MapInv (allocate m ty orig).2 ∧
    (∀ kv ∈ m, kv ∈ (allocate m ty orig).2) ∧
    ((allocate m ty orig).1, orig) ∈ (allocate m ty orig).2 ∧
    (∃ i, i ≠ [] ∧ braceFree i = true ∧ (allocate m ty orig).1 = mkBraced i) := by
  obtain ⟨hinv1, hinv2, hinv3, hinv4⟩ := hinv
  cases hf : findExisting m ty orig with
  | some tok =>
    have hres1 : (allocate m ty orig).1 = tok := by unfold allocate; rw [hf]
    have hres2 : (allocate m ty orig).2 = m := by unfold allocate; rw [hf]
    rw [hres1, hres2]
    have hmem := findExisting_some_mem hf
    refine ⟨⟨hinv1, hinv2, hinv3, hinv4⟩, fun kv h => h, hmem, ?_⟩
    obtain ⟨ty2, n2, hty2, htk⟩ := hinv1 (tok, orig) hmem
    have htk' : tok = mkToken ty2 n2 := htk
    exact ⟨ty2 ++ usc :: natStr n2, (tokenInterior_good ty2 n2 hty2).1,
      (tokenInterior_good ty2 n2 hty2).2, by rw [htk', mkToken_eq_mkBraced]⟩
  | none =>
    have hfresh : m.any (fun kv => kv.1 = mkToken ty (prefCount m ty + 1)) = false := by
      cases ha : m.any (fun kv => kv.1 = mkToken ty (prefCount m ty + 1)) with
      | false => rfl
      | true =>
        exfalso
        obtain ⟨kv, hkv, hp⟩ := List.any_eq_true.mp ha
        have hk : kv.1 = mkToken ty (prefCount m ty + 1) := of_decide_eq_true hp
        have hmem2 : (mkToken ty (prefCount m ty + 1), kv.2) ∈ m := by
          rw [← hk]; exact hkv
        have := hinv2 ty (prefCount m ty + 1) kv.2 hmem2
        omega
    have hres1 : (allocate m ty orig).1 = mkToken ty (prefCount m ty + 1) := by
      unfold allocate; rw [hf]
    have hres2 : (allocate m ty orig).2 =
        m ++ [(mkToken ty (prefCount m ty + 1), orig)] := by
      unfold allocate
      rw [hf]
      exact dictInsert_fresh m _ orig hfresh
    rw [hres1, hres2]
    have hnotkey : mkToken ty (prefCount m ty + 1) ∉ m.map Prod.fst := by
      intro hmem
      obtain ⟨kv, hkv, hfst⟩ := List.mem_map.mp hmem
      have hmem2 : (mkToken ty (prefCount m ty + 1), kv.2) ∈ m := by
        rw [← hfst]; exact hkv
      have := hinv2 ty (prefCount m ty + 1) kv.2 hmem2
      omega
    refine ⟨⟨?_, ?_, ?_, ?_⟩, ?_, ?_, ?_⟩
    · intro kv hkv
      rcases List.mem_append.mp hkv with h1 | h2
      · exact hinv1 kv h1
      · have heq : kv = (mkToken ty (prefCount m ty + 1), orig) :=
          List.mem_singleton.mp h2
        subst heq
        exact ⟨ty, prefCount m ty + 1, hty, rfl⟩
    · intro ty' n' v' hmem
      rw [prefCount_append]
      rcases List.mem_append.mp hmem with h1 | h2
      · have := hinv2 ty' n' v' h1
        omega
      · have heq : (mkToken ty' n', v') = (mkToken ty (prefCount m ty + 1), orig) :=
          List.mem_singleton.mp h2
        have htt : mkToken ty' n' = mkToken ty (prefCount m ty + 1) :=
          congrArg Prod.fst heq
        obtain ⟨hty', hn'⟩ := mkToken_inj htt
        have hone : prefCount [(mkToken ty (prefCount m ty + 1), orig)] ty = 1 := by
          simp [prefCount, List.countP_cons, bracePre_prefix_mkToken]
        rw [hty', hn']
        omega
    · rw [List.map_append]
      simp only [List.map_cons, List.map_nil]
      refine List.Nodup.append hinv3 (List.nodup_singleton _) ?_
      intro a ha hb
      rw [List.mem_singleton] at hb
      subst hb
      exact hnotkey ha
    · intro kv hkv
      rcases List.mem_append.mp hkv with h1 | h2
      · exact hinv4 kv h1
      · have heq : kv = (mkToken ty (prefCount m ty + 1), orig) :=
          List.mem_singleton.mp h2
        subst heq
        exact hobf
    · exact fun kv h => List.mem_append.mpr (Or.inl h)
    · exact List.mem_append.mpr (Or.inr (by simp))
    · exact ⟨ty ++ usc :: natStr (prefCount m ty + 1),
        (tokenInterior_good ty _ hty).1, (tokenInterior_good ty _ hty).2,
        mkToken_eq_mkBraced ty _⟩

theorem chunksOf_spec : ∀ (ps : List Piece) (m : Mapping),
    (∀ p ∈ ps, PieceGood p) → MapInv m →
    MapInv (chunksOf m ps).2 ∧
    (∀ kv ∈ m, kv ∈ (chunksOf m ps).2) ∧
    (∀ c ∈ (chunksOf m ps).1, ChunkGood c) ∧
    (∀ t v, Chunk.site t v ∈ (chunksOf m ps).1 → (t, v) ∈ (chunksOf m ps).2) := by
  intro ps
  induction ps with
  | nil =>
    intro m _ hinv
    refine ⟨hinv, fun kv h => h, ?_, ?_⟩
    · intro c hc; simp [chunksOf] at hc
    · intro t v h; simp [chunksOf] at h
  | cons p ps ih =>
    intro m hgood hinv
    have hps : ∀ q ∈ ps, PieceGood q := fun q hq => hgood q (by simp [hq])
    cases p with
    | lit s =>
      have hs : braceFree s = true := hgood (.lit s) (by simp)
      obtain ⟨h1, h2, h3, h4⟩ := ih m hps hinv
      have heq : chunksOf m (.lit s :: ps) =
          (Chunk.run s :: (chunksOf m ps).1, (chunksOf m ps).2) := rfl
      rw [heq]
      refine ⟨h1, h2, ?_, ?_⟩
      · intro c hc
        rcases List.mem_cons.mp hc with hc1 | hc2
        · subst hc1; exact hs
        · exact h3 c hc2
      · intro t v hmem
        rcases List.mem_cons.mp hmem with hc1 | hc2
        · exact Chunk.noConfusion hc1
        · exact h4 t v hc2
    | mat ty pre mid suf =>
      obtain ⟨hty, hpre, hmid, hsuf, hne⟩ := hgood (.mat ty pre mid suf) (by simp)
      obtain ⟨ha1, ha2, ha3, ha4⟩ := allocate_spec ty mid hinv hty hmid
      obtain ⟨h1, h2, h3, h4⟩ := ih (allocate m ty mid).2 hps ha1
      have heq : chunksOf m (.mat ty pre mid suf :: ps) =
          (Chunk.run pre :: Chunk.site (allocate m ty mid).1 mid ::
            Chunk.run suf :: (chunksOf (allocate m ty mid).2 ps).1,
           (chunksOf (allocate m ty mid).2 ps).2) := by
        simp [chunksOf, hne]
      rw [heq]
      refine ⟨h1, fun kv hkv => h2 kv (ha2 kv hkv), ?_, ?_⟩
      · intro c hc
        rcases List.mem_cons.mp hc with hc1 | hc
        · subst hc1; exact hpre
        rcases List.mem_cons.mp hc with hc1 | hc
        · subst hc1; exact ⟨ha4, hmid⟩
        rcases List.mem_cons.mp hc with hc1 | hc
        · subst hc1; exact hsuf
        · exact h3 c hc
      · intro t v hmem
        rcases List.mem_cons.mp hmem with hc1 | hc
        · exact Chunk.noConfusion hc1
        rcases List.mem_cons.mp hc with hc1 | hc
        · obtain ⟨ht, hv⟩ := Chunk.site.inj hc1
          subst ht
          subst hv
          exact h2 _ ha3
        rcases List.mem_cons.mp hc with hc1 | hc
        · exact Chunk.noConfusion hc1
        · exact h4 t v hc

theorem maskPieces_eq_chunksOf : ∀ (ps : List Piece) (m : Mapping),
    maskPieces m ps = (renderChunks (chunksOf m ps).1, (chunksOf m ps).2) := by
  intro ps
  induction ps with
  | nil => intro m; rfl
  | cons p ps ih =>
    intro m
    cases p with
    | lit s =>
      simp [maskPieces, chunksOf, replaceMatchPiece, renderChunks, ih m]
    | mat ty pre mid suf =>
      by_cases hmid : mid = []
      · simp [maskPieces, chunksOf, replaceMatchPiece, renderChunks, hmid, ih m]
      · simp [maskPieces, chunksOf, replaceMatchPiece, renderChunks, hmid,
          ih (allocate m ty mid).2, List.append_assoc]

theorem restore_chunksOf : ∀ (ps : List Piece) (m : Mapping),
    restoreChunks (chunksOf m ps).1 = flattenPieces ps := by
  intro ps
  induction ps with
  | nil => intro m; rfl
  | cons p ps ih =>
    intro m
    cases p with
    | lit s => simp [chunksOf, restoreChunks, flattenPieces, pieceText, ih m]
    | mat ty pre mid suf =>
      by_cases hmid : mid = []
      · simp [chunksOf, restoreChunks, flattenPieces, pieceText, hmid, ih m]
      · simp [chunksOf, restoreChunks, flattenPieces, pieceText, hmid,
          ih (allocate m ty mid).2, List.append_assoc]

theorem extendMapping_values : ∀ (m : Mapping) (kv : Str × Str),
    kv ∈ extendMapping m → ∃ k', (k', kv.2) ∈ m := by
  intro m
  induction m with
  | nil => intro kv h; simp [extendMapping] at h
  | cons p rest ih =>
    intro kv h
    by_cases hb : isBraced p.1 = true
    · rw [show extendMapping (p :: rest) =
        p :: (stripBraces p.1, p.2) :: extendMapping rest from by
          simp [extendMapping, hb]] at h
      rcases List.mem_cons.mp h with h1 | h
      · exact ⟨p.1, by rw [h1]; exact List.mem_cons_self _ _⟩
      rcases List.mem_cons.mp h with h1 | h
      · exact ⟨p.1, by rw [h1]; exact List.mem_cons_self _ _⟩
      · obtain ⟨k', hk'⟩ := ih kv h
        exact ⟨k', List.mem_cons_of_mem p hk'⟩
    · rw [show extendMapping (p :: rest) = p :: extendMapping rest from by
        simp [extendMapping, hb]] at h
      rcases List.mem_cons.mp h with h1 | h
      · exact ⟨p.1, by rw [h1]; exact List.mem_cons_self _ _⟩
      · obtain ⟨k', hk'⟩ := ih kv h
        exact ⟨k', List.mem_cons_of_mem p hk'⟩

/-! ### Claim C1 (amended round trip) -/

/-- C1 (amended): `unmask` is a strict inverse of `mask` on a text whose
regex decomposition has brace-free components with nonempty captured
values (`PieceGood`), provided additionally that no brace-free key of the
extended mapping — i.e. no bare form `TYPE_n` of an allocated token —
already occurs in the original text.  Starting from an empty mapping,
masking the pieces and unmasking the result with the returned mapping
restores the original text exactly.  (The extra proviso is forced by the
counterexample: a pre-existing bare `EMAIL_1` in the text is also
rewritten by `unmask`.  Distinctness of the PII values is not needed:
duplicate values reuse the same token by deduplication.) -/
theorem C1_roundtrip (ps : List Piece)
    (hgood : ∀ p ∈ ps, PieceGood p)
    (hbare : ∀ kv ∈ extendMapping (maskPieces [] ps).2, braceFree kv.1 = true →
      containsSeq (flattenPieces ps) kv.1 = false) :
    unmask (maskPieces [] ps).1 (maskPieces [] ps).2 = flattenPieces ps := by
  have hinv0 : MapInv ([] : Mapping) :=
    ⟨fun kv h => absurd h (List.not_mem_nil _),
     fun ty n v h => absurd h (List.not_mem_nil _),
     List.nodup_nil,
     fun kv h => absurd h (List.not_mem_nil _)⟩
  obtain ⟨hinv, _, hchg, hsites⟩ := chunksOf_spec ps [] hgood hinv0
  obtain ⟨hinv1, hinv2, hinv3, hinv4⟩ := hinv
  have hmask := maskPieces_eq_chunksOf ps []
  have hrest := restore_chunksOf ps []
  have hbare' : ∀ kv ∈ extendMapping (chunksOf [] ps).2, braceFree kv.1 = true →
      containsSeq (flattenPieces ps) kv.1 = false := by
    rw [hmask] at hbare
    exact hbare
  rw [hmask]
  show (sortByLen (extendMapping (chunksOf [] ps).2)).foldl unmaskStep
      (renderChunks (chunksOf [] ps).1) = flattenPieces ps
  rw [← hrest]
  apply unmask_fold_spec (flattenPieces ps)
  · exact hchg
  · intro kv hkv
    have hkv' : kv ∈ extendMapping (chunksOf [] ps).2 :=
      (sortByLen_perm _).mem_iff.mp hkv
    have hkey := mem_extendMapping_keys (chunksOf [] ps).2 kv.1
      (List.mem_map.mpr ⟨kv, hkv', rfl⟩)
    rcases hkey with ⟨v, hv⟩ | ⟨t, v, htv, htb, hkt⟩
    · obtain ⟨ty2, n2, hty2, htk⟩ := hinv1 (kv.1, v) hv
      refine Or.inl ⟨ty2 ++ usc :: natStr n2, (tokenInterior_good ty2 n2 hty2).1,
        (tokenInterior_good ty2 n2 hty2).2, ?_⟩
      have htk' : kv.1 = mkToken ty2 n2 := htk
      rw [htk', mkToken_eq_mkBraced]
    · obtain ⟨ty2, n2, hty2, htk⟩ := hinv1 (t, v) htv
      have ht' : t = mkToken ty2 n2 := htk
      have hkt' : kv.1 = ty2 ++ usc :: natStr n2 := by
        rw [hkt, ht', mkToken_eq_mkBraced, stripBraces_mkBraced]
      refine Or.inr ⟨?_, ?_, ?_⟩
      · rw [hkt']; exact (tokenInterior_good ty2 n2 hty2).1
      · rw [hkt']; exact (tokenInterior_good ty2 n2 hty2).2
      · exact hbare' kv hkv'
          (by rw [hkt']; exact (tokenInterior_good ty2 n2 hty2).2)
  · intro kv hkv
    have hkv' : kv ∈ extendMapping (chunksOf [] ps).2 :=
      (sortByLen_perm _).mem_iff.mp hkv
    obtain ⟨k', hk'⟩ := extendMapping_values _ kv hkv'
    exact hinv4 (k', kv.2) hk'
  · exact sortByLen_pairwise _
  · intro t v hmem
    exact (sortByLen_perm _).mem_iff.mpr
      (mem_extendMapping_of_mem _ t v (hsites t v hmem)).1
  · exact ⟨[], [], by simpa using hrest⟩
  · have htok : ∀ kv ∈ (chunksOf [] ps).2,
        ∃ i, i ≠ [] ∧ braceFree i = true ∧ kv.1 = mkBraced i := by
      intro kv hkv
      obtain ⟨ty2, n2, hty2, htk⟩ := hinv1 kv hkv
      exact ⟨ty2 ++ usc :: natStr n2, (tokenInterior_good ty2 n2 hty2).1,
        (tokenInterior_good ty2 n2 hty2).2, by rw [htk, mkToken_eq_mkBraced]⟩
    have hnd := extendMapping_keys_nodup _ htok hinv3
    exact ((sortByLen_perm _).map Prod.fst).nodup_iff.mpr hnd

/-- Closed witness for C1: the three-email text of `emailPieces` is a full
regex decomposition with brace-free components and nonempty distinct
addresses, none of whose bare token forms `EMAIL_1`, `EMAIL_2`, `EMAIL_3`
occurs in it, and the mask/unmask round trip restores it exactly. -/
theorem C1_roundtrip_witness :
    (∀ p ∈ Fixtures.emailPieces, PieceGood p) ∧
    (∀ kv ∈ extendMapping (maskPieces [] Fixtures.emailPieces).2,
      braceFree kv.1 = true →
      containsSeq (flattenPieces Fixtures.emailPieces) kv.1 = false) ∧
    unmask (maskPieces [] Fixtures.emailPieces).1
        (maskPieces [] Fixtures.emailPieces).2 =
      flattenPieces Fixtures.emailPieces :=
  ⟨by decide, by decide,
    C1_roundtrip Fixtures.emailPieces (by decide) (by decide)⟩

end PIIService

end SecurityChat
